import Mathlib

set_option maxRecDepth 40000

/-!
# A verification development for the `sudogo` sudoku solver

This file gives a shallow embedding of the solver: the per-cell candidate
bitmask (`Cell`, a Go `uint16` mask of which `0x1ff` is used), the 81-cell
board with row/column/box elimination (`Board.fill`), the two propagation
rules (`Board.singlePossible`, `Board.onlyPlace`) run to a fixpoint, the
`container/heap` binary min-heap over candidate counts, and the
iteratively-deepened backtracking search (`solveAux` / `Board.iterate`).
Machine integers are embedded as `Nat`; the 16-bit complement in
`Cell.Drop` is written out explicitly.  Unbounded source loops are given
explicit fuel, with theorems showing the chosen fuel suffices.
-/

/-- The 16-bit mask `^(1 << (v-1))` used by `Cell.Drop` (`can &= ^(1 << (v-1))`
on a `uint16`). -/
def dropMask (v : Nat) : Nat := 0xffff ^^^ (1 <<< (v - 1))

/-- `bits.TrailingZeros16`, by fuel over the 16 bits; returns 16 on 0. -/
def tzAux : Nat → Nat → Nat
  | 0, _ => 0
  | f+1, n => if n % 2 = 1 then 0 else 1 + tzAux f (n / 2)

/-- `bits.TrailingZeros16`. -/
def tz16 (n : Nat) : Nat := tzAux 16 n

/-- `bits.OnesCount16`, by fuel over the 16 bits. -/
def popAux : Nat → Nat → Nat
  | 0, _ => 0
  | f+1, n => n % 2 + popAux f (n / 2)

/-- `bits.OnesCount16`. -/
def popCount16 (n : Nat) : Nat := popAux 16 n

/-- `cell.Cell`: a value 0-9 (0 = unsolved) and a 9-bit candidate mask
(bit k set means digit k+1 is still possible). -/
structure Cell where
  Value : Nat
  can : Nat
deriving DecidableEq

/-- `cell.New`: a cell with value `v` and empty candidate mask. -/
def Cell.New (v : Nat) : Cell := ⟨v, 0⟩

/-- `cell.IsEmpty`. -/
def Cell.IsEmpty (c : Cell) : Bool := c.Value == 0

/-- `cell.Drop`: `c.can &= ^(1 << (v - 1))`. -/
def Cell.Drop (v : Nat) (c : Cell) : Cell := ⟨c.Value, c.can &&& dropMask v⟩

/-- `cell.SetAll`: `c.can = 0x1ff`. -/
def Cell.SetAll (c : Cell) : Cell := ⟨c.Value, 0x1ff⟩

/-- `cell.IsSingle`: `can != 0 && can & (can-1) == 0`. -/
def Cell.IsSingle (c : Cell) : Bool := c.can != 0 && c.can &&& (c.can - 1) == 0

/-- `cell.FirstPossibility`: `TrailingZeros16(can) + 1`. -/
def Cell.FirstPossibility (c : Cell) : Nat := tz16 c.can + 1

/-- `cell.IsPossible`: `can & (1 << (v-1)) != 0`. -/
def Cell.IsPossible (c : Cell) (v : Nat) : Bool := c.can &&& (1 <<< (v - 1)) != 0

/-- `cell.PossibilityCount`: `OnesCount16(can)`. -/
def Cell.PossibilityCount (c : Cell) : Nat := popCount16 c.can

/-- One post-init step of `possibilityIterator.Next`: clear the lowest set bit. -/
def iterStep (can : Nat) : Nat := can &&& (can - 1)

/-- The tail of the digit sequence yielded by the possibility iterator:
keep clearing the lowest bit while the mask stays nonzero. -/
def possAux : Nat → Nat → List Nat
  | 0, _ => []
  | f+1, can =>
    let c := iterStep can
    if c = 0 then [] else (tz16 c + 1) :: possAux f c

/-- The digit sequence yielded by `Possibilities`/`Next`/`Value`.  The first
call to `Next` returns true unconditionally (it only sets `init`), so the
head element is produced even when the mask is 0. -/
def possList (can : Nat) : List Nat := (tz16 can + 1) :: possAux 16 can

/-- `coord.Coord`: an (X, Y) position, 0-8 each on a valid board. -/
structure Coord where
  X : Nat
  Y : Nat
deriving DecidableEq

/-- `coord.Ctoi`: linear index `y*9 + x`. -/
def Ctoi (c : Coord) : Nat := c.Y * 9 + c.X

/-- A coordinate actually on the 9x9 board. -/
def Coord.Valid (c : Coord) : Prop := c.X < 9 ∧ c.Y < 9

instance (c : Coord) : Decidable c.Valid := by unfold Coord.Valid; infer_instance

/-- `coord.Row c`: the nine coordinates of c's row, in iteration order. -/
def rowCoords (c : Coord) : List Coord := (List.range 9).map fun i => ⟨i, c.Y⟩

/-- `coord.Column c`: the nine coordinates of c's column, in iteration order. -/
def colCoords (c : Coord) : List Coord := (List.range 9).map fun i => ⟨c.X, i⟩

/-- `coord.Box c`: the nine coordinates of c's 3x3 box, in the x-outer,
y-inner order the Go constructor materialises. -/
def boxCoords (c : Coord) : List Coord :=
  (List.range 3).flatMap fun x => (List.range 3).map fun y =>
    ⟨x + (c.X - c.X % 3), y + (c.Y - c.Y % 3)⟩

/-- `coord.All()`: all 81 coordinates row-major. -/
def allCoords : List Coord := (List.range 81).map fun i => ⟨i % 9, i / 9⟩

/-- The coordinates visited by `fill`'s elimination pass:
`Composed(Composed(Row c, Column c), Box c)`. -/
def fillCoords (c : Coord) : List Coord := rowCoords c ++ colCoords c ++ boxCoords c

/-- The 27 constraint groups in the order `onlyPlace` visits them:
`Composed(Composed(AllRows(), AllColumns()), AllBoxes())`. -/
def allGroups : List (List Coord) :=
  ((List.range 9).map fun y => rowCoords ⟨0, y⟩)
    ++ ((List.range 9).map fun x => colCoords ⟨x, 0⟩)
    ++ ((List.range 9).map fun i => boxCoords ⟨i % 3 * 3, i / 3 * 3⟩)

/-- `board`: the 81-cell array, row-major by `Ctoi`. -/
abbrev Board := List Cell

/-- `board.at` (read access). -/
def Board.atc (b : Board) (c : Coord) : Cell := b.getD (Ctoi c) (Cell.New 0)

/-- `board.at` used as the target of an assignment. -/
def Board.setAt (b : Board) (c : Coord) (x : Cell) : Board := b.set (Ctoi c) x

/-- `board.allPossible`: `SetAll` on every cell of `All()`. -/
def Board.allPossible (b : Board) : Board :=
  allCoords.foldl (fun b' co => b'.setAt co (Cell.SetAll (b'.atc co))) b

/-- The elimination loop of `fill`: drop `v` at every coordinate of `L`. -/
def dropFold (v : Nat) (L : List Coord) (b : Board) : Board :=
  L.foldl (fun b' d => b'.setAt d (Cell.Drop v (b'.atc d))) b

/-- `board.fill`: set the target to `cell.New v`, then drop `v` along the
row, column and box of `c`. -/
def Board.fill (b : Board) (c : Coord) (v : Nat) : Board :=
  dropFold v (fillCoords c) (b.setAt c (Cell.New v))

/-- The body of `singlePossible`'s scan at one coordinate. -/
def spStep (rb : Bool × Board) (co : Coord) : Bool × Board :=
  let c := rb.2.atc co
  if c.IsSingle then (true, rb.2.fill co c.FirstPossibility) else rb

/-- `board.singlePossible`: one full pass over `All()`, filling every cell
that is single-possible at the moment it is visited. -/
def Board.singlePossible (b : Board) : Bool × Board := allCoords.foldl spStep (false, b)

/-- The digits 1-9 in the order the `onlyPlace` inner loops scan them. -/
def digits : List Nat := (List.range 9).map (· + 1)

/-- The `counts` array `onlyPlace` tallies for one group: entry `j-1` is how
many cells of the group still admit digit `j`. -/
def groupCounts (b : Board) (g : List Coord) : List Nat :=
  let cans := g.map fun co => b.atc co
  digits.map fun j => (cans.filter fun cl => cl.IsPossible j).length

/-- The placement `onlyPlace` commits to inside one group, if any: the first
coordinate (group order) and digit (ascending) with `IsPossible` and
`counts[j-1] == 1`. -/
def findOnly (b : Board) (g : List Coord) : Option (Coord × Nat) :=
  let counts := groupCounts b g
  g.findSome? fun co =>
    let cl := b.atc co
    (digits.find? fun j => cl.IsPossible j && counts.getD (j - 1) 0 == 1).map
      fun j => (co, j)

/-- `board.onlyPlace`: scan the 27 groups in order and fill the first forced
placement found, returning whether one was found. -/
def Board.onlyPlace (b : Board) : Bool × Board :=
  match allGroups.findSome? (findOnly b) with
  | some (co, j) => (true, b.fill co j)
  | none => (false, b)

/-- `board.solved`: no cell is empty. -/
def Board.solved (b : Board) : Bool := allCoords.all fun co => !(b.atc co).IsEmpty

/-- `board.contradicts`: some cell has value 0 and possibility count 0. -/
def Board.contradicts (b : Board) : Bool :=
  allCoords.any fun co =>
    let cl := b.atc co
    cl.Value == 0 && cl.PossibilityCount == 0

/-- Total number of candidate bits on the board, the termination measure of
the propagation fixpoint loop. -/
def Board.totalCan (b : Board) : Nat := (b.map fun cl => popCount16 cl.can).sum

/-- The `for b.singlePossible() || b.onlyPlace() {}` loop, with fuel. -/
def propAux : Nat → Board → Board
  | 0, b => b
  | f+1, b =>
    match b.singlePossible with
    | (true, b') => propAux f b'
    | (false, _) =>
      match b.onlyPlace with
      | (true, b'') => propAux f b''
      | (false, _) => b

/-- The propagation fixpoint loop; `totalCan + 1` fuel provably suffices. -/
def Board.propagate (b : Board) : Board := propAux (b.totalCan + 1) b

/-- `cqueue.PrioCoord`. -/
structure PrioCoord where
  Count : Nat
  Coord : Coord
deriving DecidableEq

/-- `cqueue.Queue`, as the underlying slice. -/
abbrev Queue := List PrioCoord

/-- Out-of-range reads (which the verified runs never perform). -/
def pqDflt : PrioCoord := ⟨0, ⟨0, 0⟩⟩

/-- Slice indexing on the queue. -/
def pqGet (q : Queue) (i : Nat) : PrioCoord := q.getD i pqDflt

/-- `Queue.Less`: comparison by candidate count only. -/
def pqLess (q : Queue) (i j : Nat) : Prop := (pqGet q i).Count < (pqGet q j).Count

instance (q : Queue) (i j : Nat) : Decidable (pqLess q i j) := by
  unfold pqLess; infer_instance

/-- `Queue.Swap`. -/
def pqSwap (q : Queue) (i j : Nat) : Queue := (q.set i (pqGet q j)).set j (pqGet q i)

/-- `container/heap.up`, with fuel (the index at least halves each step). -/
def upAux : Nat → Queue → Nat → Queue
  | 0, q, _ => q
  | f+1, q, j =>
    let i := (j - 1) / 2
    if i = j then q
    else if pqLess q j i then upAux f (pqSwap q i j) i
    else q

/-- `container/heap.Push`: append, then sift up from the last index. -/
def pqPush (q : Queue) (x : PrioCoord) : Queue :=
  upAux (q.length + 1) (q ++ [x]) q.length

/-- `container/heap.down` restricted to indices below `n`, with fuel. -/
def downAux : Nat → Queue → Nat → Nat → Queue
  | 0, q, _, _ => q
  | f+1, q, i, n =>
    let j1 := 2 * i + 1
    if j1 ≥ n then q
    else
      let j := if j1 + 1 < n ∧ pqLess q (j1 + 1) j1 then j1 + 1 else j1
      if pqLess q j i then downAux f (pqSwap q i j) j n else q

/-- `container/heap.Pop`: swap the root to the end, sift down on the rest,
remove and return the last slot. -/
def pqPop (q : Queue) : PrioCoord × Queue :=
  let n := q.length - 1
  let q2 := downAux q.length (pqSwap q 0 n) 0 n
  (pqGet q2 n, q2.take n)

/-- `board.tries`: push every coordinate whose possibility count is in
`[1, maxWidth]`, in `All()` order. -/
def Board.tries (b : Board) (maxWidth : Nat) : Queue :=
  allCoords.foldl (fun q c =>
    let p := (b.atc c).PossibilityCount
    if 0 < p ∧ p ≤ maxWidth then pqPush q ⟨p, c⟩ else q) []

/-- The sequence of entries delivered by popping the queue until empty,
as `try`'s outer loop does. -/
def popOrder : Nat → Queue → List PrioCoord
  | 0, _ => []
  | f+1, q =>
    if q.length = 0 then []
    else
      let xq := pqPop q
      xq.1 :: popOrder f xq.2

/-- Drain the queue completely (fuel `length` suffices: each pop shortens). -/
def pqDrain (q : Queue) : List PrioCoord := popOrder q.length q

/-- `try`'s inner loop over the candidate digits of one popped cell: clone,
fill the clone, recurse; first success wins. -/
def tryCands (recur : Board → Bool × Board) (b : Board) (c : Coord) :
    List Nat → Option Board
  | [] => none
  | v :: vs =>
    match recur (b.fill c v) with
    | (true, bb') => some bb'
    | (false, _) => tryCands recur b c vs

/-- `try`'s outer loop over the popped cells. -/
def tryCells (recur : Board → Bool × Board) (b : Board) :
    List PrioCoord → Option Board
  | [] => none
  | p :: ps =>
    match tryCands recur b p.Coord (possList (b.atc p.Coord).can) with
    | some b' => some b'
    | none => tryCells recur b ps

/-- The body of `board.solve` once past the depth guard: propagate, check
`solved` and `contradicts`, then branch via `try` (whose recursive call is
the `recur` argument). -/
def solveStep (recur : Board → Bool × Board) (maxWidth : Nat) (b : Board) :
    Bool × Board :=
  let b1 := b.propagate
  if b1.solved then (true, b1)
  else if b1.contradicts then (false, b1)
  else
    match tryCells recur b1 (pqDrain (b1.tries maxWidth)) with
    | some b' => (true, b')
    | none => (false, b1)

/-- `board.solve`, structurally on the remaining depth budget
`maxDepth - depth` (the `depth >= maxDepth` guard is the 0 case). -/
def solveAux : Nat → Nat → Board → Bool × Board
  | 0, _, b => (false, b)
  | f+1, maxWidth, b => solveStep (fun bb => solveAux f maxWidth bb) maxWidth b

/-- `board.solve(depth, maxDepth, maxWidth)`. -/
def Board.solve (b : Board) (depth maxDepth maxWidth : Nat) : Bool × Board :=
  solveAux (maxDepth - depth) maxWidth b

/-- `board.try(depth, maxDepth, maxWidth)`: queue up the candidate cells and
run the two nested loops; on failure the receiver is untouched. -/
def Board.tryB (b : Board) (depth maxDepth maxWidth : Nat) : Bool × Board :=
  match tryCells (fun bb => solveAux (maxDepth - (depth + 1)) maxWidth bb) b
      (pqDrain (b.tries maxWidth)) with
  | some b' => (true, b')
  | none => (false, b)

/-- `board.iterate`'s loop from a given `maxDepth`, with fuel on the number
of attempts (the source loop is unbounded). -/
def iterAux : Nat → Nat → Board → Option Board
  | 0, _, _ => none
  | f+1, maxDepth, b =>
    match b.solve 0 maxDepth (max (maxDepth / 3) 2) with
    | (true, b') => some b'
    | (false, b') => iterAux f (maxDepth + 1) b'

/-- `board.iterate`: start at `maxDepth = 3`. -/
def Board.iterate (b : Board) (fuel : Nat) : Option Board := iterAux fuel 3 b

/-- The givens `main` fills into the freshly `allPossible`d board. -/
def givens : List (Coord × Nat) :=
  [(⟨0,0⟩, 8), (⟨2,1⟩, 3), (⟨3,1⟩, 6), (⟨1,2⟩, 7), (⟨4,2⟩, 9), (⟨6,2⟩, 2),
   (⟨1,3⟩, 5), (⟨5,3⟩, 7), (⟨4,4⟩, 4), (⟨5,4⟩, 5), (⟨6,4⟩, 7), (⟨3,5⟩, 1),
   (⟨7,5⟩, 3), (⟨2,6⟩, 1), (⟨7,6⟩, 6), (⟨8,6⟩, 8), (⟨2,7⟩, 8), (⟨3,7⟩, 5),
   (⟨7,7⟩, 1), (⟨1,8⟩, 9), (⟨6,8⟩, 4)]

/-- `board{}` then `allPossible()`: every cell unsolved with full mask. -/
def board0 : Board := Board.allPossible (List.replicate 81 (Cell.New 0))

/-- The board `main` hands to `iterate`: the givens filled in order. -/
def mainBoard : Board := givens.foldl (fun b cv => b.fill cv.1 cv.2) board0

/-- `d` is in the same row as `c`. -/
def SameRow (d c : Coord) : Prop := d.Y = c.Y

/-- `d` is in the same column as `c`. -/
def SameCol (d c : Coord) : Prop := d.X = c.X

/-- `d` is in the same 3x3 box as `c`. -/
def SameBox (d c : Coord) : Prop := d.X / 3 = c.X / 3 ∧ d.Y / 3 = c.Y / 3

/-- `d` shares `c`'s row, column or box. -/
def Shares (d c : Coord) : Prop := SameRow d c ∨ SameCol d c ∨ SameBox d c

instance (d c : Coord) : Decidable (SameRow d c) := by unfold SameRow; infer_instance

instance (d c : Coord) : Decidable (SameCol d c) := by unfold SameCol; infer_instance

instance (d c : Coord) : Decidable (SameBox d c) := by unfold SameBox; infer_instance

instance (d c : Coord) : Decidable (Shares d c) := by unfold Shares; infer_instance

/-- Every stored candidate mask is below `m`. -/
def WFcan (m : Nat) (b : Board) : Prop := ∀ cl ∈ b, cl.can < m

/-- Well-formedness from the `canT = uint16` representation: every stored
mask fits in 16 bits. -/
def WF16 (b : Board) : Prop := WFcan 65536 b

/-- The stronger mask bound the program maintains: only the 9 low bits are
ever set (`SetAll` writes `0x1ff` and `Drop` only clears bits). -/
def WF9 (b : Board) : Prop := WFcan 512 b

instance (m : Nat) (b : Board) : Decidable (WFcan m b) := by
  unfold WFcan; infer_instance

instance (b : Board) : Decidable (WF16 b) := by unfold WF16; infer_instance

instance (b : Board) : Decidable (WF9 b) := by unfold WF9; infer_instance

/-- The per-cell invariant of the data model: a solved cell carries no
candidates. -/
def CInv (cl : Cell) : Prop := cl.Value ≠ 0 → cl.can = 0

/-- The board-wide cell invariant. -/
def BoardInv (b : Board) : Prop := ∀ cl ∈ b, CInv cl

instance (cl : Cell) : Decidable (CInv cl) := by unfold CInv; infer_instance

instance (b : Board) : Decidable (BoardInv b) := by unfold BoardInv; infer_instance

/-- The digits of the set bits of a 9-bit mask, ascending: the reference
reading of what the possibility iterator should deliver. -/
def bitsOf (can : Nat) : List Nat :=
  (List.range 9).filterMap fun k => if can.testBit k then some (k + 1) else none

/-- Boards reachable from the freshly initialised board by the solver's
operations. -/
inductive Reachable : Board → Prop where
  | init : Reachable board0
  | fill {b : Board} (c : Coord) {v : Nat} :
      Reachable b → 1 ≤ v → v ≤ 9 → Reachable (b.fill c v)
  | single {b : Board} : Reachable b → Reachable b.singlePossible.2
  | only {b : Board} : Reachable b → Reachable b.onlyPlace.2
  | solve {b : Board} (depth maxDepth maxWidth : Nat) :
      Reachable b → Reachable (b.solve depth maxDepth maxWidth).2
  | iter {b b' : Board} (fuel : Nat) :
      Reachable b → b.iterate fuel = some b' → Reachable b'

/-- An all-empty board (value 0, no candidates everywhere): immediately
contradictory. -/
def zeroBoard : Board := List.replicate 81 (Cell.New 0)

/-- A board whose first cell is a naked single and whose other 80 cells are
contradictory: `solve` fails on it but mutates it. -/
def cexBoard : Board := zeroBoard.set 0 ⟨0, 1⟩

/-- The board before the `k`-th attempt of the iterative-deepening loop
started at `maxDepth = d` (attempt `k` uses `maxDepth = d + k`). -/
def bSeqFrom (d : Nat) (b : Board) : Nat → Board
  | 0 => b
  | k+1 => ((bSeqFrom d b k).solve 0 (d + k) (max ((d + k) / 3) 2)).2

/-- Whether the `k`-th attempt of the loop started at `maxDepth = d`
succeeds. -/
def okFrom (d : Nat) (b : Board) (k : Nat) : Prop :=
  ((bSeqFrom d b k).solve 0 (d + k) (max ((d + k) / 3) 2)).1 = true

instance (d : Nat) (b : Board) (k : Nat) : Decidable (okFrom d b k) := by
  unfold okFrom; infer_instance

/-- The completed grid that solves the hardcoded puzzle, as 81 solved
cells. -/
def mainSolution : Board :=
  [8, 1, 2, 7, 5, 3, 6, 4, 9,
   9, 4, 3, 6, 8, 2, 1, 7, 5,
   6, 7, 5, 4, 9, 1, 2, 8, 3,
   1, 5, 4, 2, 3, 7, 8, 9, 6,
   3, 6, 9, 8, 4, 5, 7, 2, 1,
   2, 8, 7, 1, 6, 9, 5, 3, 4,
   5, 2, 1, 9, 7, 4, 3, 6, 8,
   4, 3, 8, 5, 2, 6, 9, 1, 7,
   7, 9, 6, 3, 1, 8, 4, 5, 2].map Cell.New

/-- A board position that witnesses a contradiction: an unsolved cell with
no candidates left. -/
def HasZeroCell (b : Board) : Prop :=
  ∃ co : Coord, co.Valid ∧ (b.atc co).Value = 0 ∧ (b.atc co).can = 0

/-- A board predicate preserved by every `fill` the solver performs (the
solver only ever fills valid coordinates whose mask is nonzero). -/
def GoodStep (P : Board → Prop) : Prop :=
  ∀ (b : Board) (c : Coord) (v : Nat), c.Valid → b.length = 81 →
    (b.atc c).can ≠ 0 → P b → P (b.fill c v)

/-- Heap order between two slots of the queue. -/
def HeapLe (q : Queue) (a b : Nat) : Prop := (pqGet q a).Count ≤ (pqGet q b).Count

/-- The binary min-heap invariant on the first `n` slots. -/
def IsHeapN (q : Queue) (n : Nat) : Prop :=
  ∀ j, 0 < j → j < n → HeapLe q ((j - 1) / 2) j

/-- The binary min-heap invariant maintained by `heap.Push`/`heap.Pop`. -/
def IsHeap (q : Queue) : Prop := IsHeapN q q.length

/-- The almost-heap invariant of `heap.up`: every parent edge holds except
possibly the one into `j`, and the elements below `j` are bounded by `j`'s
parent. -/
def UpInv (q : Queue) (j : Nat) : Prop :=
  (∀ c, 0 < c → c < q.length → c ≠ j → HeapLe q ((c - 1) / 2) c) ∧
  (∀ c, 0 < c → c < q.length → (c - 1) / 2 = j → 0 < j → HeapLe q ((j - 1) / 2) c)

/-- The almost-heap invariant of `heap.down` on the region below `n`: every
parent edge holds except possibly those out of `i`, and the elements below
`i` are bounded by `i`'s parent. -/
def DownInv (q : Queue) (i n : Nat) : Prop :=
  (∀ c, 0 < c → c < n → (c - 1) / 2 ≠ i → HeapLe q ((c - 1) / 2) c) ∧
  (∀ c, 0 < c → c < n → (c - 1) / 2 = i → 0 < i → HeapLe q ((i - 1) / 2) c)

/-! ## Unfolding lemmas for the fuel-indexed solver -/

theorem solveAux_zero (w : Nat) (b : Board) : solveAux 0 w b = (false, b) := rfl

theorem solveAux_succ (f w : Nat) (b : Board) :
    solveAux (f+1) w b = solveStep (fun bb => solveAux f w bb) w b := rfl

/-! ## Basic list and coordinate lemmas -/

theorem getD_set_eq {α : Type} (l : List α) (i : Nat) (x d : α) (h : i < l.length) :
    (l.set i x).getD i d = x := by
  simp [List.getD_eq_getElem?_getD, List.getElem?_set, h]

theorem getD_set_ne {α : Type} (l : List α) (i j : Nat) (x d : α) (h : i ≠ j) :
    (l.set i x).getD j d = l.getD j d := by
  simp [List.getD_eq_getElem?_getD, List.getElem?_set, h]

theorem mem_of_mem_set {α : Type} {l : List α} {i : Nat} {x a : α}
    (h : a ∈ l.set i x) : a ∈ l ∨ a = x := by
  induction l generalizing i with
  | nil => simp [List.set] at h
  | cons hd tl ih =>
    cases i with
    | zero =>
      rcases List.mem_cons.1 h with rfl | h'
      · exact Or.inr rfl
      · exact Or.inl (List.mem_cons_of_mem _ h')
    | succ n =>
      rcases List.mem_cons.1 h with rfl | h'
      · exact Or.inl (List.mem_cons_self _ _)
      · rcases ih h' with h2 | h2
        · exact Or.inl (List.mem_cons_of_mem _ h2)
        · exact Or.inr h2

theorem Ctoi_lt {c : Coord} (h : c.Valid) : Ctoi c < 81 := by
  obtain ⟨h1, h2⟩ := h
  unfold Ctoi
  omega

theorem Ctoi_inj {c d : Coord} (hc : c.Valid) (hd : d.Valid) (h : Ctoi c = Ctoi d) :
    c = d := by
  obtain ⟨hc1, hc2⟩ := hc
  obtain ⟨hd1, hd2⟩ := hd
  cases c
  cases d
  unfold Ctoi at h
  simp_all
  omega

theorem length_setAt (b : Board) (c : Coord) (x : Cell) :
    (b.setAt c x).length = b.length := List.length_set ..

theorem atc_setAt_self {b : Board} {c : Coord} (x : Cell) (hc : c.Valid)
    (hb : b.length = 81) : (b.setAt c x).atc c = x :=
  getD_set_eq _ _ _ _ (hb ▸ Ctoi_lt hc)

theorem atc_setAt_ne {b : Board} {c d : Coord} (x : Cell) (hc : c.Valid)
    (hd : d.Valid) (hne : c ≠ d) : (b.setAt c x).atc d = b.atc d :=
  getD_set_ne _ _ _ _ _ fun h => hne (Ctoi_inj hc hd h)

theorem mem_rowCoords {c d : Coord} : d ∈ rowCoords c ↔ d.X < 9 ∧ d.Y = c.Y := by
  cases c with | mk cX cY =>
  cases d with | mk dX dY =>
  unfold rowCoords
  simp only [List.mem_map, List.mem_range, Coord.mk.injEq]
  constructor
  · rintro ⟨i, hi, h1, h2⟩
    exact ⟨by omega, h2.symm⟩
  · rintro ⟨h1, h2⟩
    exact ⟨dX, h1, rfl, h2.symm⟩

theorem mem_colCoords {c d : Coord} : d ∈ colCoords c ↔ d.X = c.X ∧ d.Y < 9 := by
  cases c with | mk cX cY =>
  cases d with | mk dX dY =>
  unfold colCoords
  simp only [List.mem_map, List.mem_range, Coord.mk.injEq]
  constructor
  · rintro ⟨i, hi, h1, h2⟩
    exact ⟨h1.symm, by omega⟩
  · rintro ⟨h1, h2⟩
    exact ⟨dY, h2, h1.symm, rfl⟩

theorem mem_boxCoords {c d : Coord} (hc : c.Valid) :
    d ∈ boxCoords c ↔ d.Valid ∧ SameBox d c := by
  obtain ⟨hc1, hc2⟩ := hc
  cases c with | mk cX cY =>
  cases d with | mk dX dY =>
  unfold Coord.Valid SameBox boxCoords
  dsimp only at hc1 hc2 ⊢
  simp only [List.mem_flatMap, List.mem_map, List.mem_range, Coord.mk.injEq]
  constructor
  · rintro ⟨x, hx, y, hy, h1, h2⟩
    refine ⟨⟨by omega, by omega⟩, by omega, by omega⟩
  · rintro ⟨⟨h1, h2⟩, h3, h4⟩
    exact ⟨dX - (cX - cX % 3), by omega, dY - (cY - cY % 3), by omega, by omega, by omega⟩

theorem mem_fillCoords {c d : Coord} (hc : c.Valid) (hd : d.Valid) :
    d ∈ fillCoords c ↔ Shares d c := by
  unfold fillCoords Shares
  simp only [List.mem_append, mem_rowCoords, mem_colCoords, mem_boxCoords hc]
  unfold SameRow SameCol
  obtain ⟨h1, h2⟩ := hd
  constructor
  · rintro ((⟨_, h⟩ | ⟨h, _⟩) | ⟨_, h⟩)
    · exact Or.inl h
    · exact Or.inr (Or.inl h)
    · exact Or.inr (Or.inr h)
  · rintro (h | h | h)
    · exact Or.inl (Or.inl ⟨h1, h⟩)
    · exact Or.inl (Or.inr ⟨h, h2⟩)
    · exact Or.inr ⟨⟨h1, h2⟩, h⟩

theorem fillCoords_valid {c : Coord} (hc : c.Valid) :
    ∀ d ∈ fillCoords c, d.Valid := by
  intro d hd
  unfold fillCoords at hd
  rcases List.mem_append.1 hd with h | h
  · rcases List.mem_append.1 h with h' | h'
    · exact ⟨mem_rowCoords.1 h' |>.1, mem_rowCoords.1 h' |>.2 ▸ hc.2⟩
    · exact ⟨mem_colCoords.1 h' |>.1 ▸ hc.1, mem_colCoords.1 h' |>.2⟩
  · exact ((mem_boxCoords hc).1 h).1

theorem self_mem_fillCoords {c : Coord} (hc : c.Valid) : c ∈ fillCoords c :=
  (mem_fillCoords hc hc).2 (Or.inl rfl)

theorem allCoords_valid : ∀ c ∈ allCoords, c.Valid := by decide

theorem allGroups_valid : ∀ g ∈ allGroups, ∀ c ∈ g, c.Valid := by decide

/-! ## The effect of `fill` -/

theorem dropFold_nil (v : Nat) (b : Board) : dropFold v [] b = b := rfl

theorem dropFold_cons (v : Nat) (e : Coord) (L : List Coord) (b : Board) :
    dropFold v (e :: L) b = dropFold v L (b.setAt e (Cell.Drop v (b.atc e))) := rfl

theorem length_dropFold (v : Nat) (L : List Coord) (b : Board) :
    (dropFold v L b).length = b.length := by
  induction L generalizing b with
  | nil => rfl
  | cons e L ih => rw [dropFold_cons, ih, length_setAt]

theorem length_fill (b : Board) (c : Coord) (v : Nat) :
    (b.fill c v).length = b.length := by
  unfold Board.fill
  rw [length_dropFold, length_setAt]

theorem drop_idem (v : Nat) (cl : Cell) :
    Cell.Drop v (Cell.Drop v cl) = Cell.Drop v cl := by
  unfold Cell.Drop
  rw [Nat.land_assoc, Nat.and_self]

theorem atc_dropFold {v : Nat} {L : List Coord} {b : Board} {d : Coord}
    (hL : ∀ e ∈ L, e.Valid) (hd : d.Valid) (hb : b.length = 81) :
    (dropFold v L b).atc d = if d ∈ L then Cell.Drop v (b.atc d) else b.atc d := by
  induction L generalizing b with
  | nil => simp [dropFold_nil]
  | cons e L ih =>
    have he : e.Valid := hL e (List.mem_cons_self _ _)
    have hL' : ∀ x ∈ L, x.Valid := fun x hx => hL x (List.mem_cons_of_mem _ hx)
    rw [dropFold_cons, ih hL' (by rw [length_setAt]; exact hb)]
    by_cases hde : d = e
    · subst hde
      rw [atc_setAt_self _ hd hb]
      by_cases hdL : d ∈ L
      · simp [hdL, drop_idem]
      · simp [hdL]
    · rw [atc_setAt_ne _ he hd fun h => hde h.symm]
      by_cases hdL : d ∈ L
      · simp [hdL, hde]
      · simp [hdL, hde]

theorem fill_atc_self {b : Board} {c : Coord} (v : Nat) (hc : c.Valid)
    (hb : b.length = 81) : (b.fill c v).atc c = ⟨v, 0⟩ := by
  unfold Board.fill
  rw [atc_dropFold (fillCoords_valid hc) hc (by rw [length_setAt]; exact hb),
    if_pos (self_mem_fillCoords hc), atc_setAt_self _ hc hb]
  simp [Cell.Drop, Cell.New]

theorem fill_atc_shared {b : Board} {c d : Coord} (v : Nat) (hc : c.Valid)
    (hd : d.Valid) (hb : b.length = 81) (hne : d ≠ c) (hsh : Shares d c) :
    (b.fill c v).atc d = Cell.Drop v (b.atc d) := by
  unfold Board.fill
  rw [atc_dropFold (fillCoords_valid hc) hd (by rw [length_setAt]; exact hb),
    if_pos ((mem_fillCoords hc hd).2 hsh),
    atc_setAt_ne _ hc hd fun h => hne h.symm]

theorem not_shares_ne {c d : Coord} (h : ¬ Shares d c) : d ≠ c := by
  intro hdc
  exact h (hdc ▸ Or.inl rfl)

theorem fill_atc_other {b : Board} {c d : Coord} (v : Nat) (hc : c.Valid)
    (hd : d.Valid) (hb : b.length = 81) (hnsh : ¬ Shares d c) :
    (b.fill c v).atc d = b.atc d := by
  unfold Board.fill
  rw [atc_dropFold (fillCoords_valid hc) hd (by rw [length_setAt]; exact hb),
    if_neg (fun h => hnsh ((mem_fillCoords hc hd).1 h)),
    atc_setAt_ne _ hc hd fun h => not_shares_ne hnsh h.symm]

theorem dropMask_kills {v : Nat} (h1 : 1 ≤ v) (h2 : v ≤ 9) :
    dropMask v &&& (1 <<< (v - 1)) = 0 := by
  interval_cases v <;> decide

theorem drop_not_possible (cl : Cell) {v : Nat} (h1 : 1 ≤ v) (h2 : v ≤ 9) :
    (Cell.Drop v cl).IsPossible v = false := by
  unfold Cell.Drop Cell.IsPossible
  simp only [bne_eq_false_iff_eq]
  rw [Nat.land_assoc, dropMask_kills h1 h2]
  simp

/-! ## C1 and C10: the fill invariant and its frame -/

/-- C1: for every board, valid coordinate `c` and digit `v` in `[1,9]`,
after `fill(c, v)` the cell at `c` holds value `v` with an empty candidate
mask, and every other cell sharing `c`'s row, column or box no longer
admits `v` as a candidate. -/
theorem fill_sets_and_eliminates (b : Board) (c : Coord) (v : Nat)
    (hb : b.length = 81) (hc : c.Valid) (hv1 : 1 ≤ v) (hv2 : v ≤ 9) :
    (b.fill c v).atc c = ⟨v, 0⟩ ∧
      ∀ d : Coord, d.Valid → d ≠ c → Shares d c →
        ((b.fill c v).atc d).IsPossible v = false := by
  refine ⟨fill_atc_self v hc hb, fun d hd hne hsh => ?_⟩
  rw [fill_atc_shared v hc hd hb hne hsh]
  exact drop_not_possible _ hv1 hv2

theorem fill_sets_and_eliminates_witness :
    (board0.fill ⟨4,4⟩ 5).atc ⟨4,4⟩ = ⟨5, 0⟩ ∧
      ((board0.fill ⟨4,4⟩ 5).atc ⟨4,8⟩).IsPossible 5 = false :=
  ⟨(fill_sets_and_eliminates board0 ⟨4,4⟩ 5 (by decide) (by decide) (by decide)
      (by decide)).1,
   (fill_sets_and_eliminates board0 ⟨4,4⟩ 5 (by decide) (by decide) (by decide)
      (by decide)).2 ⟨4,8⟩ (by decide) (by decide) (Or.inr (Or.inl rfl))⟩

/-- C10: `fill(c, v)` leaves every valid cell not sharing `c`'s row, column
or box bit-for-bit unchanged, and on the sharing cells other than `c` it
keeps the stored value and only clears candidate bit `v-1`
(`can := can &&& ^(1 <<< (v-1))`). -/
theorem fill_frame (b : Board) (c : Coord) (v : Nat)
    (hb : b.length = 81) (hc : c.Valid) (hv1 : 1 ≤ v) (hv2 : v ≤ 9) :
    (∀ d : Coord, d.Valid → ¬ Shares d c → (b.fill c v).atc d = b.atc d) ∧
      ∀ d : Coord, d.Valid → d ≠ c → Shares d c →
        ((b.fill c v).atc d).Value = (b.atc d).Value ∧
          ((b.fill c v).atc d).can = (b.atc d).can &&& dropMask v := by
  refine ⟨fun d hd hnsh => fill_atc_other v hc hd hb hnsh, fun d hd hne hsh => ?_⟩
  rw [fill_atc_shared v hc hd hb hne hsh]
  exact ⟨rfl, rfl⟩

theorem fill_frame_witness :
    (board0.fill ⟨4,4⟩ 5).atc ⟨8,8⟩ = board0.atc ⟨8,8⟩ ∧
      ((board0.fill ⟨4,4⟩ 5).atc ⟨0,4⟩).Value = (board0.atc ⟨0,4⟩).Value ∧
        ((board0.fill ⟨4,4⟩ 5).atc ⟨0,4⟩).can = (board0.atc ⟨0,4⟩).can &&& dropMask 5 :=
  ⟨(fill_frame board0 ⟨4,4⟩ 5 (by decide) (by decide) (by decide) (by decide)).1
      ⟨8,8⟩ (by decide) (by decide),
   (fill_frame board0 ⟨4,4⟩ 5 (by decide) (by decide) (by decide) (by decide)).2
      ⟨0,4⟩ (by decide) (by decide) (Or.inl rfl)⟩

/-! ## Bit-count lemmas -/

theorem land_mod_two (x m : Nat) : (x &&& m) % 2 ≤ x % 2 := by
  rcases Nat.mod_two_eq_zero_or_one x with hx | hx
  · have h := Nat.testBit_land x m 0
    rw [Nat.testBit_zero, Nat.testBit_zero, Nat.testBit_zero] at h
    have hxf : decide (x % 2 = 1) = false := by simp [hx]
    rw [hxf, Bool.false_and] at h
    have h2 : (x &&& m) % 2 ≠ 1 := by simpa using h
    omega
  · have : (x &&& m) % 2 < 2 := Nat.mod_lt _ (by omega)
    omega

theorem popAux_land_le (f : Nat) : ∀ x m : Nat, popAux f (x &&& m) ≤ popAux f x := by
  induction f with
  | zero => intro x m; exact Nat.le_refl 0
  | succ f ih =>
    intro x m
    show (x &&& m) % 2 + popAux f ((x &&& m) / 2) ≤ x % 2 + popAux f (x / 2)
    rw [Nat.and_div_two]
    exact Nat.add_le_add (land_mod_two x m) (ih (x / 2) (m / 2))

theorem popAux_pos (f : Nat) : ∀ x : Nat, x ≠ 0 → x < 2 ^ f → 0 < popAux f x := by
  induction f with
  | zero => intro x h0 h1; omega
  | succ f ih =>
    intro x h0 h1
    show 0 < x % 2 + popAux f (x / 2)
    rcases Nat.mod_two_eq_zero_or_one x with h | h
    · have : x / 2 ≠ 0 := by omega
      have h2 : x / 2 < 2 ^ f := by
        rw [pow_succ] at h1
        omega
      have := ih (x / 2) this h2
      omega
    · omega

theorem popAux_eq_zero (f : Nat) : ∀ x : Nat, x < 2 ^ f → (popAux f x = 0 ↔ x = 0) := by
  intro x hx
  constructor
  · intro h
    by_contra h0
    have := popAux_pos f x h0 hx
    omega
  · rintro rfl
    induction f with
    | zero => rfl
    | succ f ih => simpa [popAux] using ih (by positivity)

theorem popCount16_zero : popCount16 0 = 0 := by decide

/-! ## `totalCan` arithmetic -/

theorem map_sum_set (f : Cell → Nat) :
    ∀ (l : List Cell) (i : Nat) (x : Cell), i < l.length →
      ((l.set i x).map f).sum + f (l.getD i (Cell.New 0)) = (l.map f).sum + f x := by
  intro l
  induction l with
  | nil => intro i x h; simp at h
  | cons hd tl ih =>
    intro i x h
    cases i with
    | zero =>
      simp [List.set, List.getD]
      omega
    | succ n =>
      have hn : n < tl.length := by simpa using h
      have := ih n x hn
      simp [List.set, List.getD] at this ⊢
      omega

theorem totalCan_setAt (b : Board) (c : Coord) (x : Cell) (h : Ctoi c < b.length) :
    (b.setAt c x).totalCan + popCount16 (b.atc c).can = b.totalCan + popCount16 x.can := by
  unfold Board.totalCan Board.setAt Board.atc
  exact map_sum_set (fun cl => popCount16 cl.can) b (Ctoi c) x h

theorem WFcan_setAt {m : Nat} {b : Board} {x : Cell} (c : Coord) (hw : WFcan m b)
    (hx : x.can < m) : WFcan m (b.setAt c x) := fun cl hcl =>
  (mem_of_mem_set hcl).elim (hw cl) fun h => h ▸ hx

theorem WFcan_atc {m : Nat} {b : Board} (c : Coord) (hm : 0 < m) (hw : WFcan m b) :
    (b.atc c).can < m := by
  unfold Board.atc
  by_cases h : Ctoi c < b.length
  · rw [List.getD_eq_getElem _ _ h]
    exact hw _ (List.getElem_mem h)
  · rw [List.getD_eq_default _ _ (by omega)]
    exact hm

theorem WFcan_dropFold {m : Nat} {v : Nat} (hm : 0 < m) :
    ∀ (L : List Coord) (b : Board), WFcan m b → WFcan m (dropFold v L b) := by
  intro L
  induction L with
  | nil => intro b hw; exact hw
  | cons e L ih =>
    intro b hw
    rw [dropFold_cons]
    refine ih _ (WFcan_setAt e hw ?_)
    show (Board.atc b e).can &&& dropMask v < m
    exact Nat.lt_of_le_of_lt (Nat.and_le_left) (WFcan_atc e hm hw)

theorem WFcan_fill {m : Nat} {b : Board} (c : Coord) (v : Nat) (hm : 0 < m)
    (hw : WFcan m b) : WFcan m (b.fill c v) :=
  WFcan_dropFold hm _ _ (WFcan_setAt c hw hm)

theorem dropFold_totalCan_le (v : Nat) :
    ∀ (L : List Coord) (b : Board), (∀ e ∈ L, e.Valid) → b.length = 81 →
      (dropFold v L b).totalCan ≤ b.totalCan := by
  intro L
  induction L with
  | nil => intro b _ _; exact Nat.le_refl _
  | cons e L ih =>
    intro b hL hb
    rw [dropFold_cons]
    have he : e.Valid := hL e (List.mem_cons_self _ _)
    have hset := totalCan_setAt b e (Cell.Drop v (b.atc e)) (by rw [hb]; exact Ctoi_lt he)
    have hdrop : popCount16 (Cell.Drop v (b.atc e)).can ≤ popCount16 (b.atc e).can :=
      popAux_land_le 16 _ _
    have hrest := ih (b.setAt e (Cell.Drop v (b.atc e)))
      (fun x hx => hL x (List.mem_cons_of_mem _ hx)) (by rw [length_setAt]; exact hb)
    omega

theorem fill_totalCan_le {b : Board} {c : Coord} (v : Nat) (hc : c.Valid)
    (hb : b.length = 81) : (b.fill c v).totalCan ≤ b.totalCan := by
  unfold Board.fill
  have hset := totalCan_setAt b c (Cell.New v) (by rw [hb]; exact Ctoi_lt hc)
  have : (b.setAt c (Cell.New v)).totalCan ≤ b.totalCan := by
    have : popCount16 (Cell.New v).can = 0 := popCount16_zero
    omega
  have hdf := dropFold_totalCan_le v (fillCoords c) (b.setAt c (Cell.New v))
    (fillCoords_valid hc) (by rw [length_setAt]; exact hb)
  omega

theorem fill_totalCan_lt {b : Board} {c : Coord} (v : Nat) (hc : c.Valid)
    (hb : b.length = 81) (hw : WF16 b) (hcan : (b.atc c).can ≠ 0) :
    (b.fill c v).totalCan < b.totalCan := by
  unfold Board.fill
  have hset := totalCan_setAt b c (Cell.New v) (by rw [hb]; exact Ctoi_lt hc)
  have hpos : 0 < popCount16 (b.atc c).can :=
    popAux_pos 16 _ hcan (WFcan_atc c (by omega) hw)
  have hnew : popCount16 (Cell.New v).can = 0 := popCount16_zero
  have hdf := dropFold_totalCan_le v (fillCoords c) (b.setAt c (Cell.New v))
    (fillCoords_valid hc) (by rw [length_setAt]; exact hb)
  omega

/-! ## The propagation rules make strict progress -/

theorem fill_can_zero {b : Board} {c d : Coord} (v : Nat) (hc : c.Valid) (hd : d.Valid)
    (hb : b.length = 81) (h : (b.atc d).can = 0) : ((b.fill c v).atc d).can = 0 := by
  by_cases hdc : d = c
  · subst hdc
    rw [fill_atc_self v hc hb]
  · by_cases hsh : Shares d c
    · rw [fill_atc_shared v hc hd hb hdc hsh]
      show (b.atc d).can &&& dropMask v = 0
      rw [h, Nat.zero_and]
    · rw [fill_atc_other v hc hd hb hsh, h]

theorem spStep_snd_pos {rb : Bool × Board} {co : Coord}
    (hs : (rb.2.atc co).IsSingle = true) :
    (spStep rb co).2 = rb.2.fill co (rb.2.atc co).FirstPossibility := by
  simp only [spStep]
  rw [if_pos hs]

theorem spStep_snd_neg {rb : Bool × Board} {co : Coord}
    (hs : ¬ (rb.2.atc co).IsSingle = true) : (spStep rb co).2 = rb.2 := by
  simp only [spStep]
  rw [if_neg hs]

theorem spStep_pos {r : Bool} {b : Board} {co : Coord}
    (hs : (b.atc co).IsSingle = true) :
    spStep (r, b) co = (true, b.fill co (b.atc co).FirstPossibility) := by
  simp only [spStep]
  rw [if_pos hs]

theorem spStep_neg {r : Bool} {b : Board} {co : Coord}
    (hs : ¬ (b.atc co).IsSingle = true) : spStep (r, b) co = (r, b) := by
  simp only [spStep]
  rw [if_neg hs]

theorem spStep_length (rb : Bool × Board) (co : Coord) :
    (spStep rb co).2.length = rb.2.length := by
  unfold spStep
  by_cases h : (rb.2.atc co).IsSingle = true
  · simp [h, length_fill]
  · simp [h]

theorem isSingle_can_ne {cl : Cell} (h : cl.IsSingle = true) : cl.can ≠ 0 := by
  unfold Cell.IsSingle at h
  rw [Bool.and_eq_true] at h
  simpa using h.1

theorem isPossible_can_ne {cl : Cell} {j : Nat} (h : cl.IsPossible j = true) :
    cl.can ≠ 0 := by
  intro h0
  unfold Cell.IsPossible at h
  rw [h0, Nat.zero_and] at h
  simp at h

theorem spFold_can_zero :
    ∀ (L : List Coord), (∀ e ∈ L, e.Valid) →
      ∀ (r : Bool) (b : Board), b.length = 81 →
        ∀ {d : Coord}, d.Valid → (b.atc d).can = 0 →
          ((L.foldl spStep (r, b)).2.atc d).can = 0 := by
  intro L
  induction L with
  | nil => intro _ r b _ d _ h; exact h
  | cons co L ih =>
    intro hL r b hlen d hd h
    have hco : co.Valid := hL co (List.mem_cons_self _ _)
    have hL' : ∀ e ∈ L, e.Valid := fun e he => hL e (List.mem_cons_of_mem _ he)
    rw [List.foldl_cons]
    by_cases hs : (b.atc co).IsSingle = true
    · rw [spStep_pos hs]
      exact ih hL' true _ (by rw [length_fill]; exact hlen) hd
        (fill_can_zero _ hco hd hlen h)
    · rw [spStep_neg hs]
      exact ih hL' r b hlen hd h

theorem spFold_main :
    ∀ (L : List Coord), (∀ e ∈ L, e.Valid) →
      ∀ (r : Bool) (b : Board), b.length = 81 → WF16 b →
        ((L.foldl spStep (r, b)).2.length = 81 ∧ WF16 (L.foldl spStep (r, b)).2) ∧
        (L.foldl spStep (r, b)).2.totalCan ≤ b.totalCan ∧
        ((L.foldl spStep (r, b)).1 = false → (L.foldl spStep (r, b)).2 = b ∧ r = false) ∧
        (r = false → (L.foldl spStep (r, b)).1 = true →
          (L.foldl spStep (r, b)).2.totalCan < b.totalCan ∧
            ∃ co, co.Valid ∧ (b.atc co).can ≠ 0 ∧
              ((L.foldl spStep (r, b)).2.atc co).can = 0) := by
  intro L
  induction L with
  | nil =>
    intro _ r b hb hw
    refine ⟨⟨hb, hw⟩, Nat.le_refl _, fun h => ⟨rfl, h⟩, fun h1 h2 => ?_⟩
    rw [h1] at h2
    simp at h2
  | cons co L ih =>
    intro hL r b hb hw
    have hco : co.Valid := hL co (List.mem_cons_self _ _)
    have hL' : ∀ e ∈ L, e.Valid := fun e he => hL e (List.mem_cons_of_mem _ he)
    rw [List.foldl_cons]
    by_cases hs : (b.atc co).IsSingle = true
    · rw [spStep_pos hs]
      have hcan : (b.atc co).can ≠ 0 := isSingle_can_ne hs
      have hlt : (b.fill co (b.atc co).FirstPossibility).totalCan < b.totalCan :=
        fill_totalCan_lt _ hco hb hw hcan
      have hlen1 : (b.fill co (b.atc co).FirstPossibility).length = 81 := by
        rw [length_fill]; exact hb
      have hw1 : WF16 (b.fill co (b.atc co).FirstPossibility) :=
        WFcan_fill co _ (by omega) hw
      obtain ⟨⟨ihlen, ihw⟩, ihle, ihfalse, _⟩ := ih hL' true _ hlen1 hw1
      refine ⟨⟨ihlen, ihw⟩, by omega, fun h => absurd (ihfalse h).2 (by simp),
        fun _ _ => ⟨by omega, co, hco, hcan, ?_⟩⟩
      refine spFold_can_zero L hL' true (b.fill co (b.atc co).FirstPossibility)
        hlen1 hco ?_
      rw [fill_atc_self _ hco hb]
    · rw [spStep_neg hs]
      exact ih hL' r b hb hw

theorem singlePossible_spec (b : Board) (hb : b.length = 81) (hw : WF16 b) :
    (b.singlePossible.2.length = 81 ∧ WF16 b.singlePossible.2) ∧
    b.singlePossible.2.totalCan ≤ b.totalCan ∧
    (b.singlePossible.1 = false → b.singlePossible.2 = b) ∧
    (b.singlePossible.1 = true →
      b.singlePossible.2.totalCan < b.totalCan ∧
        ∃ co, co.Valid ∧ (b.atc co).can ≠ 0 ∧ (b.singlePossible.2.atc co).can = 0) := by
  obtain ⟨h1, h2, h3, h4⟩ := spFold_main allCoords allCoords_valid false b hb hw
  exact ⟨h1, h2, fun h => (h3 h).1, h4 rfl⟩

theorem digits_bounds : ∀ j ∈ digits, 1 ≤ j ∧ j ≤ 9 := by decide

theorem findOnly_spec {b : Board} {g : List Coord} {co : Coord} {j : Nat}
    (h : findOnly b g = some (co, j)) :
    co ∈ g ∧ (b.atc co).IsPossible j = true ∧ j ∈ digits := by
  unfold findOnly at h
  obtain ⟨a, ha, hfa⟩ := List.exists_of_findSome?_eq_some h
  rcases Option.map_eq_some'.1 hfa with ⟨j', hj', heq⟩
  have haco : a = co := congrArg Prod.fst heq
  have hjj : j' = j := congrArg Prod.snd heq
  subst haco
  subst hjj
  have hp := List.find?_some hj'
  rw [Bool.and_eq_true] at hp
  exact ⟨ha, hp.1, List.mem_of_find?_eq_some hj'⟩

theorem onlyPlace_cases (b : Board) :
    b.onlyPlace = (false, b) ∨
      ∃ co j, co.Valid ∧ (b.atc co).IsPossible j = true ∧ 1 ≤ j ∧ j ≤ 9 ∧
        b.onlyPlace = (true, b.fill co j) := by
  unfold Board.onlyPlace
  cases hfind : allGroups.findSome? (findOnly b) with
  | none => exact Or.inl rfl
  | some cj =>
    obtain ⟨co, j⟩ := cj
    obtain ⟨g, hg, hfo⟩ := List.exists_of_findSome?_eq_some hfind
    obtain ⟨hmem, hposs, hdig⟩ := findOnly_spec hfo
    obtain ⟨hj1, hj2⟩ := digits_bounds j hdig
    exact Or.inr ⟨co, j, allGroups_valid g hg co hmem, hposs, hj1, hj2, rfl⟩

theorem onlyPlace_spec (b : Board) (hb : b.length = 81) (hw : WF16 b) :
    (b.onlyPlace.2.length = 81 ∧ WF16 b.onlyPlace.2) ∧
    (b.onlyPlace.1 = false → b.onlyPlace.2 = b) ∧
    (b.onlyPlace.1 = true →
      b.onlyPlace.2.totalCan < b.totalCan ∧
        ∃ co, co.Valid ∧ (b.atc co).can ≠ 0 ∧ (b.onlyPlace.2.atc co).can = 0) := by
  rcases onlyPlace_cases b with h | ⟨co, j, hco, hposs, hj1, hj2, h⟩
  · rw [h]
    exact ⟨⟨hb, hw⟩, fun _ => rfl, fun hh => by simp at hh⟩
  · rw [h]
    dsimp only
    have hcan : (b.atc co).can ≠ 0 := isPossible_can_ne hposs
    refine ⟨⟨by rw [length_fill]; exact hb, WFcan_fill co j (by omega) hw⟩,
      fun hh => by simp at hh, fun _ => ⟨fill_totalCan_lt j hco hb hw hcan, co, hco, hcan, ?_⟩⟩
    rw [fill_atc_self j hco hb]

section SealedSolver

attribute [local irreducible] Board.fill dropFold Board.allPossible
  Board.singlePossible Board.onlyPlace findOnly groupCounts Board.totalCan
  Board.solved Board.contradicts Board.tries pqPush pqPop upAux downAux
  popOrder pqDrain tryCells tryCands solveAux iterAux

/-! ## The propagation loop reaches a fixpoint -/

theorem propAux_succ (f : Nat) (b : Board) :
    propAux (f+1) b =
      if b.singlePossible.1 then propAux f b.singlePossible.2
      else if b.onlyPlace.1 then propAux f b.onlyPlace.2
      else b := by
  cases hsp : b.singlePossible with
  | mk r b2 =>
    cases r with
    | true => simp [propAux, hsp]
    | false =>
      cases hop : b.onlyPlace with
      | mk r2 b3 =>
        cases r2 with
        | true => simp [propAux, hsp, hop]
        | false => simp [propAux, hsp, hop]

theorem propAux_spec : ∀ (f : Nat) (b : Board), b.totalCan < f → b.length = 81 →
    WF16 b →
    (propAux f b).length = 81 ∧ WF16 (propAux f b) ∧
      (propAux f b).singlePossible.1 = false ∧ (propAux f b).onlyPlace.1 = false := by
  intro f
  induction f with
  | zero => intro b hlt _ _; exact absurd hlt (Nat.not_lt_zero _)
  | succ f ih =>
    intro b hlt hb hw
    rw [propAux_succ]
    obtain ⟨⟨hsl, hsw⟩, _, hsfalse, hstrue⟩ := singlePossible_spec b hb hw
    by_cases hsp : b.singlePossible.1 = true
    · rw [if_pos hsp]
      have hlt2 := (hstrue hsp).1
      exact ih _ (by omega) hsl hsw
    · rw [if_neg hsp]
      have hspb : b.singlePossible.2 = b := hsfalse (by simpa using hsp)
      obtain ⟨⟨hol, how⟩, hofalse, hotrue⟩ := onlyPlace_spec b hb hw
      by_cases hop : b.onlyPlace.1 = true
      · rw [if_pos hop]
        have hlt2 := (hotrue hop).1
        exact ih _ (by omega) hol how
      · rw [if_neg hop]
        exact ⟨hb, hw, by simpa using hsp, by simpa using hop⟩

theorem propagate_spec (b : Board) (hb : b.length = 81) (hw : WF16 b) :
    b.propagate.length = 81 ∧ WF16 b.propagate ∧
      b.propagate.singlePossible.1 = false ∧ b.propagate.onlyPlace.1 = false :=
  propAux_spec (b.totalCan + 1) b (Nat.lt_succ_self _) hb hw

/-! ## C2: the propagation fixpoint loop terminates -/

/-- C2: on any 81-cell `uint16` board, each firing of the naked-single or
hidden-single rule fills at least one cell (a cell with a nonzero mask ends
with mask 0) and strictly decreases the total number of candidate bits, and
the `for singlePossible || onlyPlace` loop (run with the provably
sufficient fuel `totalCan + 1`) ends in a board on which neither rule can
fire. -/
theorem propagation_fixpoint (b : Board) (hb : b.length = 81) (hw : WF16 b) :
    (b.singlePossible.1 = true →
        b.singlePossible.2.totalCan < b.totalCan ∧
          ∃ co, co.Valid ∧ (b.atc co).can ≠ 0 ∧ (b.singlePossible.2.atc co).can = 0) ∧
      (b.onlyPlace.1 = true →
        b.onlyPlace.2.totalCan < b.totalCan ∧
          ∃ co, co.Valid ∧ (b.atc co).can ≠ 0 ∧ (b.onlyPlace.2.atc co).can = 0) ∧
      b.propagate.singlePossible.1 = false ∧ b.propagate.onlyPlace.1 = false := by
  obtain ⟨_, _, _, hstrue⟩ := singlePossible_spec b hb hw
  obtain ⟨_, _, hotrue⟩ := onlyPlace_spec b hb hw
  obtain ⟨_, _, hp1, hp2⟩ := propagate_spec b hb hw
  exact ⟨hstrue, hotrue, hp1, hp2⟩

/-! ## Generic preservation of board predicates through the rules -/

theorem spFold_length :
    ∀ (L : List Coord) (rb : Bool × Board),
      ((L.foldl spStep rb).2).length = rb.2.length := by
  intro L
  induction L with
  | nil => intro rb; rfl
  | cons co L ih =>
    intro rb
    rw [List.foldl_cons, ih, spStep_length]

theorem sp_length (b : Board) : b.singlePossible.2.length = b.length := by
  unfold Board.singlePossible
  exact spFold_length allCoords (false, b)

theorem op_length (b : Board) : b.onlyPlace.2.length = b.length := by
  rcases onlyPlace_cases b with h | ⟨co, j, _, _, _, _, h⟩
  · rw [h]
  · rw [h]
    exact length_fill b co j

theorem spFold_pres {P : Board → Prop} (good : GoodStep P) :
    ∀ (L : List Coord), (∀ e ∈ L, e.Valid) → ∀ (r : Bool) (b : Board),
      b.length = 81 → P b → P ((L.foldl spStep (r, b)).2) := by
  intro L
  induction L with
  | nil => intro _ r b _ hP; exact hP
  | cons co L ih =>
    intro hL r b hb hP
    have hco := hL co (List.mem_cons_self _ _)
    have hL' : ∀ e ∈ L, e.Valid := fun e he => hL e (List.mem_cons_of_mem _ he)
    rw [List.foldl_cons]
    by_cases hs : (b.atc co).IsSingle = true
    · rw [spStep_pos hs]
      exact ih hL' true _ (by rw [length_fill]; exact hb)
        (good b co _ hco hb (isSingle_can_ne hs) hP)
    · rw [spStep_neg hs]
      exact ih hL' r b hb hP

theorem sp_pres {P : Board → Prop} (good : GoodStep P) (b : Board)
    (hb : b.length = 81) (hP : P b) : P b.singlePossible.2 := by
  unfold Board.singlePossible
  exact spFold_pres good allCoords allCoords_valid false b hb hP

theorem op_pres {P : Board → Prop} (good : GoodStep P) (b : Board)
    (hb : b.length = 81) (hP : P b) : P b.onlyPlace.2 := by
  rcases onlyPlace_cases b with h | ⟨co, j, hco, hposs, _, _, h⟩
  · rw [h]
    exact hP
  · rw [h]
    exact good b co j hco hb (isPossible_can_ne hposs) hP

theorem propAux_pres {P : Board → Prop} (good : GoodStep P) :
    ∀ (f : Nat) (b : Board), b.length = 81 → P b → P (propAux f b) := by
  intro f
  induction f with
  | zero => intro b _ hP; exact hP
  | succ f ih =>
    intro b hb hP
    rw [propAux_succ]
    by_cases hsp : b.singlePossible.1 = true
    · rw [if_pos hsp]
      exact ih _ (by rw [sp_length]; exact hb) (sp_pres good b hb hP)
    · rw [if_neg hsp]
      by_cases hop : b.onlyPlace.1 = true
      · rw [if_pos hop]
        exact ih _ (by rw [op_length]; exact hb) (op_pres good b hb hP)
      · rw [if_neg hop]
        exact hP

theorem propagate_pres {P : Board → Prop} (good : GoodStep P) (b : Board)
    (hb : b.length = 81) (hP : P b) : P b.propagate :=
  propAux_pres good (b.totalCan + 1) b hb hP

/-! ## C7: contradiction detection -/

theorem mem_allCoords {co : Coord} : co ∈ allCoords ↔ co.Valid := by
  unfold allCoords Coord.Valid
  cases co with | mk x y =>
  simp only [List.mem_map, List.mem_range, Coord.mk.injEq]
  constructor
  · rintro ⟨i, hi, h1, h2⟩
    constructor <;> omega
  · rintro ⟨h1, h2⟩
    exact ⟨y * 9 + x, by omega, by omega, by omega⟩

theorem contradicts_iff {b : Board} (hw : WF16 b) :
    b.contradicts = true ↔ HasZeroCell b := by
  have h216 : (65536 : Nat) = 2 ^ 16 := by norm_num
  unfold Board.contradicts HasZeroCell
  rw [List.any_eq_true]
  constructor
  · rintro ⟨co, hmem, hp⟩
    simp only [Bool.and_eq_true, beq_iff_eq] at hp
    refine ⟨co, mem_allCoords.1 hmem, hp.1, ?_⟩
    have hlt : (b.atc co).can < 2 ^ 16 := h216 ▸ WFcan_atc co (by omega) hw
    exact (popAux_eq_zero 16 _ hlt).1 hp.2
  · rintro ⟨co, hval, hv0, hc0⟩
    refine ⟨co, mem_allCoords.2 hval, ?_⟩
    simp only [Bool.and_eq_true, beq_iff_eq]
    refine ⟨hv0, ?_⟩
    show popCount16 (b.atc co).can = 0
    rw [hc0]
    exact popCount16_zero

theorem solved_false {b : Board} (h : HasZeroCell b) : b.solved = false := by
  obtain ⟨co, hval, hv0, _⟩ := h
  cases hsol : b.solved with
  | false => rfl
  | true =>
    exfalso
    unfold Board.solved at hsol
    rw [List.all_eq_true] at hsol
    have := hsol co (mem_allCoords.2 hval)
    simp only [Bool.not_eq_true', Cell.IsEmpty, beq_eq_false_iff_ne] at this
    exact this hv0

theorem goodStep_hasZero : GoodStep HasZeroCell := by
  intro b c v hc hb hcan h
  obtain ⟨d, hd, hv0, hc0⟩ := h
  have hdc : d ≠ c := fun hh => hcan (hh ▸ hc0)
  refine ⟨d, hd, ?_, fill_can_zero v hc hd hb hc0⟩
  by_cases hsh : Shares d c
  · rw [fill_atc_shared v hc hd hb hdc hsh]
    exact hv0
  · rw [fill_atc_other v hc hd hb hsh]
    exact hv0

theorem solveStep_eq (recur : Board → Bool × Board) (w : Nat) (b : Board) :
    solveStep recur w b =
      if b.propagate.solved then (true, b.propagate)
      else if b.propagate.contradicts then (false, b.propagate)
      else
        match tryCells recur b.propagate (pqDrain (b.propagate.tries w)) with
        | some b' => (true, b')
        | none => (false, b.propagate) := by
  simp only [solveStep]

/-- C7: `contradicts` is true exactly when some cell has value 0 and an
empty candidate mask; such a board is never reported solved, and `solve`
returns failure on it at every budget. -/
theorem contradiction_never_solved (b : Board) (hb : b.length = 81) (hw : WF16 b) :
    (b.contradicts = true ↔ HasZeroCell b) ∧
      (b.contradicts = true → b.solved = false) ∧
      (b.contradicts = true → ∀ depth maxDepth maxWidth : Nat,
        (b.solve depth maxDepth maxWidth).1 = false) := by
  refine ⟨contradicts_iff hw, fun h => solved_false ((contradicts_iff hw).1 h),
    fun h depth md w => ?_⟩
  unfold Board.solve
  generalize md - depth = f
  cases f with
  | zero =>
    rw [solveAux_zero]
  | succ f =>
    have hbad : HasZeroCell b := (contradicts_iff hw).1 h
    have hb1 : HasZeroCell b.propagate := propagate_pres goodStep_hasZero b hb hbad
    obtain ⟨hl1, hw1, _, _⟩ := propagate_spec b hb hw
    have hcon1 : b.propagate.contradicts = true := (contradicts_iff hw1).2 hb1
    have hsol1 : b.propagate.solved = false := solved_false hb1
    rw [solveAux_succ, solveStep_eq, if_neg (by simp [hsol1]), if_pos (by simp [hcon1])]

/-! ## C3: what a failed `solve` does to the board -/

/-- C3 (amended): with `depth >= maxDepth` a failed `solve` leaves the board
untouched; otherwise a `solve` that returns false leaves the board at the
propagation fixpoint of its input — forced deductions persist, but failed
guesses inside `try` leave no trace. -/
theorem solve_failure_board (b : Board) (depth maxDepth maxWidth : Nat) :
    (maxDepth ≤ depth → b.solve depth maxDepth maxWidth = (false, b)) ∧
      (depth < maxDepth → (b.solve depth maxDepth maxWidth).1 = false →
        (b.solve depth maxDepth maxWidth).2 = b.propagate) := by
  constructor
  · intro h
    unfold Board.solve
    rw [Nat.sub_eq_zero_of_le h, solveAux_zero]
  · intro h hfail
    unfold Board.solve at hfail ⊢
    have hf : maxDepth - depth = (maxDepth - depth - 1) + 1 := by omega
    rw [hf, solveAux_succ, solveStep_eq] at hfail ⊢
    by_cases h1 : b.propagate.solved = true
    · rw [if_pos (by simp [h1])] at hfail
      simp at hfail
    · rw [if_neg (by simp [h1])] at hfail ⊢
      by_cases h2 : b.propagate.contradicts = true
      · rw [if_pos (by simp [h2])]
      · rw [if_neg (by simp [h2])] at hfail ⊢
        cases htc : tryCells (fun bb => solveAux (maxDepth - depth - 1) maxWidth bb)
            b.propagate (pqDrain (b.propagate.tries maxWidth)) with
        | some b1 =>
          rw [htc] at hfail
          simp at hfail
        | none =>
          rfl

/-! ## C6: the iterative-deepening driver -/

theorem bSeqFrom_zero (d : Nat) (b : Board) : bSeqFrom d b 0 = b := rfl

theorem bSeqFrom_one (d : Nat) (b : Board) :
    bSeqFrom d b 1 = (b.solve 0 d (max (d / 3) 2)).2 := rfl

theorem bSeqFrom_shift (d : Nat) (b : Board) :
    ∀ k, bSeqFrom d b (k+1) = bSeqFrom (d+1) (bSeqFrom d b 1) k := by
  intro k
  induction k with
  | zero => rfl
  | succ k ih =>
    show ((bSeqFrom d b (k+1)).solve 0 (d + (k+1)) (max ((d + (k+1)) / 3) 2)).2 = _
    rw [ih]
    have ha : d + (k+1) = d + 1 + k := by omega
    rw [ha]
    rfl

theorem okFrom_shift (d : Nat) (b : Board) (k : Nat) :
    okFrom d b (k+1) ↔ okFrom (d+1) (bSeqFrom d b 1) k := by
  unfold okFrom
  rw [bSeqFrom_shift]
  have ha : d + (k+1) = d + 1 + k := by omega
  rw [ha]

theorem iterAux_iff : ∀ (fuel d : Nat) (b b' : Board),
    iterAux fuel d b = some b' ↔
      ∃ k, k < fuel ∧ (∀ j < k, ¬ okFrom d b j) ∧ okFrom d b k ∧
        b' = bSeqFrom d b (k+1) := by
  intro fuel
  induction fuel with
  | zero =>
    intro d b b'
    constructor
    · intro h
      simp [iterAux] at h
    · rintro ⟨k, hk, _⟩
      omega
  | succ f ih =>
    intro d b b'
    have hok0 : okFrom d b 0 ↔ (b.solve 0 d (max (d / 3) 2)).1 = true := Iff.rfl
    cases hs : b.solve 0 d (max (d / 3) 2) with
    | mk ok b1 =>
      have hstep : iterAux (f+1) d b =
          if ok then some b1 else iterAux f (d+1) b1 := by
        simp only [iterAux, hs]
        cases ok <;> rfl
      have hok0' : okFrom d b 0 ↔ ok = true := by
        rw [hok0, hs]
      have hb1 : bSeqFrom d b 1 = b1 := by
        rw [bSeqFrom_one, hs]
      cases ok with
      | true =>
        rw [hstep, if_pos rfl]
        constructor
        · intro h
          refine ⟨0, by omega, by omega, hok0'.2 rfl, ?_⟩
          rw [hb1]
          exact (Option.some_inj.1 h).symm
        · rintro ⟨k, hk, hprev, hok, hb'⟩
          cases k with
          | zero =>
            rw [hb', hb1]
          | succ k =>
            exact absurd (hok0'.2 rfl) (hprev 0 (by omega))
      | false =>
        rw [hstep, if_neg (by simp)]
        rw [ih (d+1) b1 b']
        constructor
        · rintro ⟨k, hk, hprev, hok, hb'⟩
          refine ⟨k+1, by omega, ?_, ?_, ?_⟩
          · intro j hj
            cases j with
            | zero =>
              rw [hok0']
              simp
            | succ j =>
              rw [okFrom_shift, hb1]
              exact hprev j (by omega)
          · rw [okFrom_shift, hb1]
            exact hok
          · rw [bSeqFrom_shift, hb1]
            exact hb'
        · rintro ⟨k, hk, hprev, hok, hb'⟩
          cases k with
          | zero =>
            exact absurd (hok0'.1 hok) (by simp)
          | succ k =>
            refine ⟨k, by omega, ?_, ?_, ?_⟩
            · intro j hj
              have := hprev (j+1) (by omega)
              rw [okFrom_shift, hb1] at this
              exact this
            · have := hok
              rw [okFrom_shift, hb1] at this
              exact this
            · rw [bSeqFrom_shift, hb1] at hb'
              exact hb'

/-- C6: `iterate` starts at `maxDepth = 3` and calls
`solve(0, maxDepth, max(maxDepth/3, 2))`, incrementing `maxDepth` after
each failed attempt and stopping at the first success; and `solve` fails
immediately, with the board untouched, whenever `depth >= maxDepth`. -/
theorem iterate_deepening (b b' : Board) (depth maxDepth maxWidth fuel : Nat) :
    (maxDepth ≤ depth → b.solve depth maxDepth maxWidth = (false, b)) ∧
      (b.iterate fuel = some b' ↔
        ∃ k, k < fuel ∧ (∀ j < k, ¬ okFrom 3 b j) ∧ okFrom 3 b k ∧
          b' = bSeqFrom 3 b (k+1)) := by
  constructor
  · intro h
    unfold Board.solve
    rw [Nat.sub_eq_zero_of_le h, solveAux_zero]
  · unfold Board.iterate
    exact iterAux_iff fuel 3 b b'

end SealedSolver

set_option maxHeartbeats 4000000 in
theorem solve_mutates_cex :
    (cexBoard.solve 0 3 2).1 = false ∧ (cexBoard.solve 0 3 2).2 ≠ cexBoard := by
  decide

set_option maxHeartbeats 4000000 in
theorem solve_failure_board_witness :
    cexBoard.solve 3 3 2 = (false, cexBoard) ∧
      (cexBoard.solve 0 3 2).2 = cexBoard.propagate :=
  ⟨(solve_failure_board cexBoard 3 3 2).1 (by decide),
   (solve_failure_board cexBoard 0 3 2).2 (by decide) (by decide)⟩

set_option maxHeartbeats 4000000 in
theorem iterate_deepening_witness :
    mainSolution.iterate 1 = some (bSeqFrom 3 mainSolution 1) ∧
      mainSolution.solve 5 3 2 = (false, mainSolution) :=
  ⟨(iterate_deepening mainSolution (bSeqFrom 3 mainSolution 1) 5 3 2 1).2.2
      ⟨0, by omega, fun j hj => absurd hj (Nat.not_lt_zero j), by decide, rfl⟩,
   (iterate_deepening mainSolution mainSolution 5 3 2 1).1 (by omega)⟩

set_option maxHeartbeats 4000000 in
theorem contradiction_never_solved_witness :
    zeroBoard.contradicts = true ∧ zeroBoard.solved = false ∧
      (zeroBoard.solve 0 3 2).1 = false :=
  ⟨by decide,
   (contradiction_never_solved zeroBoard (by decide) (by decide)).2.1 (by decide),
   (contradiction_never_solved zeroBoard (by decide) (by decide)).2.2 (by decide) 0 3 2⟩

/-! ## C4: the possibility iterator -/

theorem possList_empty_cex :
    possList (Cell.New 5).can = [17] ∧ possList (Cell.New 5).can ≠ [] := by
  decide

set_option maxHeartbeats 8000000 in
theorem possList_bits_all :
    ∀ can : Nat, can < 512 → can ≠ 0 →
      possList can = bitsOf can ∧ List.Pairwise (· < ·) (possList can) := by
  decide

/-- C4 (amended): for every cell with a nonzero 9-bit mask, `Possibilities`
yields exactly the digits whose candidate bits are set, each once and in
ascending order; but for a cell with an empty mask the first `Next` still
returns true, so the sequence is the single bogus element
`TrailingZeros16(0) + 1 = 17` rather than the empty sequence. -/
theorem possList_spec :
    (∀ can : Nat, can < 512 → can ≠ 0 →
        possList can = bitsOf can ∧ List.Pairwise (· < ·) (possList can)) ∧
      possList 0 = [17] :=
  ⟨possList_bits_all, by decide⟩

theorem possList_spec_witness :
    possList 325 = bitsOf 325 ∧ List.Pairwise (· < ·) (possList 325) :=
  possList_spec.1 325 (by decide) (by decide)

theorem board0_facts : BoardInv board0 ∧ board0.length = 81 := by decide

theorem mainBoard_wf9 : WF9 mainBoard := by decide

theorem propagation_fixpoint_witness :
    zeroBoard.length = 81 ∧ WF16 zeroBoard ∧
      zeroBoard.propagate.singlePossible.1 = false ∧
        zeroBoard.propagate.onlyPlace.1 = false :=
  ⟨by decide, by decide,
    (propagation_fixpoint zeroBoard (by decide) (by decide)).2.2.1,
    (propagation_fixpoint zeroBoard (by decide) (by decide)).2.2.2⟩

/-! ## The candidate priority queue: swap and permutation facts -/

theorem length_pqSwap (q : Queue) (i j : Nat) : (pqSwap q i j).length = q.length := by
  unfold pqSwap
  rw [List.length_set, List.length_set]

theorem pqGet_swap_left {q : Queue} {i j : Nat} (hi : i < q.length) (hj : j < q.length) :
    pqGet (pqSwap q i j) i = pqGet q j := by
  unfold pqSwap pqGet
  by_cases hij : i = j
  · subst hij
    rw [getD_set_eq _ _ _ _ (by rw [List.length_set]; exact hi)]
  · rw [getD_set_ne _ _ _ _ _ fun h => hij h.symm, getD_set_eq _ _ _ _ hi]

theorem pqGet_swap_right {q : Queue} {i j : Nat} (hj : j < q.length) :
    pqGet (pqSwap q i j) j = pqGet q i := by
  unfold pqSwap pqGet
  rw [getD_set_eq _ _ _ _ (by rw [List.length_set]; exact hj)]

theorem pqGet_swap_other {q : Queue} {i j k : Nat} (h1 : k ≠ i) (h2 : k ≠ j) :
    pqGet (pqSwap q i j) k = pqGet q k := by
  unfold pqSwap pqGet
  rw [getD_set_ne _ _ _ _ _ fun h => h2 h.symm, getD_set_ne _ _ _ _ _ fun h => h1 h.symm]

theorem set_head_swap (d : PrioCoord) :
    ∀ (l : List PrioCoord) (j : Nat) (x : PrioCoord), j < l.length →
      (l.getD j d :: l.set j x).Perm (x :: l) := by
  intro l
  induction l with
  | nil => intro j x h; simp at h
  | cons y l ih =>
    intro j x h
    cases j with
    | zero => exact List.Perm.swap x y l
    | succ j =>
      have hj : j < l.length := by simpa using h
      show (l.getD j d :: y :: l.set j x).Perm (x :: y :: l)
      have h1 : (l.getD j d :: y :: l.set j x).Perm (y :: l.getD j d :: l.set j x) :=
        List.Perm.swap y (l.getD j d) _
      have h2 : (y :: l.getD j d :: l.set j x).Perm (y :: x :: l) :=
        List.Perm.cons y (ih j x hj)
      have h3 : (y :: x :: l).Perm (x :: y :: l) := List.Perm.swap x y l
      exact h1.trans (h2.trans h3)

theorem pqSwap_comm (q : Queue) (i j : Nat) : pqSwap q i j = pqSwap q j i := by
  unfold pqSwap
  by_cases hij : i = j
  · subst hij
    rfl
  · rw [List.set_comm _ _ _ hij]

theorem pqSwap_perm : ∀ (q : Queue) (i j : Nat), i < q.length → j < q.length →
    (pqSwap q i j).Perm q := by
  intro q
  induction q with
  | nil => intro i j hi _; simp at hi
  | cons x q ih =>
    intro i j hi hj
    cases i with
    | zero =>
      cases j with
      | zero =>
        show ((((x :: q).set 0 (pqGet (x :: q) 0)).set 0 (pqGet (x :: q) 0))).Perm _
        exact List.Perm.refl _
      | succ j =>
        have hjq : j < q.length := by simpa using hj
        show (((x :: q).set 0 (pqGet (x :: q) (j+1))).set (j+1) (pqGet (x :: q) 0)).Perm _
        show ((q.getD j pqDflt :: q).set (j+1) x).Perm (x :: q)
        show (q.getD j pqDflt :: q.set j x).Perm (x :: q)
        exact set_head_swap pqDflt q j x hjq
    | succ i =>
      cases j with
      | zero =>
        rw [pqSwap_comm]
        have hiq : i < q.length := by simpa using hi
        show (q.getD i pqDflt :: q.set i x).Perm (x :: q)
        exact set_head_swap pqDflt q i x hiq
      | succ j =>
        have hiq : i < q.length := by simpa using hi
        have hjq : j < q.length := by simpa using hj
        show (x :: pqSwap q i j).Perm (x :: q)
        exact List.Perm.cons x (ih i j hiq hjq)

/-! ## `heap.up`: permutation and heap restoration -/

theorem upAux_perm : ∀ (f : Nat) (q : Queue) (j : Nat), j < q.length →
    (upAux f q j).Perm q := by
  intro f
  induction f with
  | zero => intro q j _; exact List.Perm.refl _
  | succ f ih =>
    intro q j hj
    show (if (j-1)/2 = j then q
      else if pqLess q j ((j-1)/2) then upAux f (pqSwap q ((j-1)/2) j) ((j-1)/2)
      else q).Perm q
    by_cases hij : (j-1)/2 = j
    · rw [if_pos hij]
    · rw [if_neg hij]
      by_cases hless : pqLess q j ((j-1)/2)
      · rw [if_pos hless]
        have hi : (j-1)/2 < q.length := by omega
        have hlen : (j-1)/2 < (pqSwap q ((j-1)/2) j).length := by
          rw [length_pqSwap]; omega
        exact (ih (pqSwap q ((j-1)/2) j) ((j-1)/2) hlen).trans
          (pqSwap_perm q ((j-1)/2) j hi hj)
      · rw [if_neg hless]

theorem upAux_heap : ∀ (f : Nat) (q : Queue) (j : Nat), j < q.length → j + 1 ≤ f →
    UpInv q j → IsHeap (upAux f q j) := by
  intro f
  induction f with
  | zero => intro q j _ hf _; omega
  | succ f ih =>
    intro q j hj hf hinv
    show IsHeap (if (j-1)/2 = j then q
      else if pqLess q j ((j-1)/2) then upAux f (pqSwap q ((j-1)/2) j) ((j-1)/2)
      else q)
    by_cases hij : (j-1)/2 = j
    · rw [if_pos hij]
      have hj0 : j = 0 := by omega
      subst hj0
      intro c hc hlen
      exact hinv.1 c hc hlen (by omega)
    · rw [if_neg hij]
      have hj1 : 0 < j := by omega
      by_cases hless : pqLess q j ((j-1)/2)
      · rw [if_pos hless]
        set i := (j-1)/2 with hidef
        have hi : i < q.length := by omega
        have hiltj : i < j := by omega
        refine ih (pqSwap q i j) i (by rw [length_pqSwap]; omega) (by omega) ⟨?_, ?_⟩
        · -- all parent edges except into i hold after the swap
          intro c hc hclen hci
          rw [length_pqSwap] at hclen
          unfold HeapLe
          by_cases hcj : c = j
          · subst hcj
            rw [hidef, pqGet_swap_left hi hj, pqGet_swap_right hj]
            exact Nat.le_of_lt hless
          · by_cases hparI : (c-1)/2 = i
            · -- c is the sibling of j under i
              rw [hparI, pqGet_swap_left hi hj,
                pqGet_swap_other hci hcj]
              have hedge : HeapLe q ((c-1)/2) c := hinv.1 c hc hclen hcj
              rw [hparI] at hedge
              exact Nat.le_trans (Nat.le_of_lt hless) hedge
            · by_cases hparJ : (c-1)/2 = j
              · -- c is a child of j: bounded by j's parent i
                rw [hparJ, pqGet_swap_right hj, pqGet_swap_other hci hcj]
                have hgrand : HeapLe q ((j-1)/2) c := hinv.2 c hc hclen hparJ hj1
                rw [← hidef] at hgrand
                exact hgrand
              · rw [pqGet_swap_other hparI hparJ, pqGet_swap_other hci hcj]
                exact hinv.1 c hc hclen hcj
        · -- elements below i are bounded by i's parent after the swap
          intro c hc hclen hpar hipos
          rw [length_pqSwap] at hclen
          unfold HeapLe
          have hpi : (i-1)/2 < i := by omega
          have hpne1 : (i-1)/2 ≠ i := by omega
          have hpne2 : (i-1)/2 ≠ j := by omega
          rw [pqGet_swap_other hpne1 hpne2]
          by_cases hcj : c = j
          · subst hcj
            rw [pqGet_swap_right hj]
            exact hinv.1 i hipos hi (by omega)
          · have hcnei : c ≠ i := by omega
            rw [pqGet_swap_other hcnei hcj]
            have h1 : HeapLe q ((i-1)/2) i := hinv.1 i hipos hi (by omega)
            have h2 : HeapLe q ((c-1)/2) c := hinv.1 c hc hclen hcj
            rw [hpar] at h2
            exact Nat.le_trans h1 h2
      · rw [if_neg hless]
        intro c hc hclen
        by_cases hcj : c = j
        · subst hcj
          unfold HeapLe
          unfold pqLess at hless
          omega
        · exact hinv.1 c hc hclen hcj

theorem length_upAux (f : Nat) (q : Queue) (j : Nat) (hj : j < q.length) :
    (upAux f q j).length = q.length := (upAux_perm f q j hj).length_eq

theorem pqPush_perm (q : Queue) (x : PrioCoord) : (pqPush q x).Perm (x :: q) := by
  unfold pqPush
  have h1 : q.length < (q ++ [x]).length := by simp
  exact (upAux_perm _ _ _ h1).trans (List.perm_append_comm)

theorem pqPush_heap {q : Queue} (x : PrioCoord) (h : IsHeap q) : IsHeap (pqPush q x) := by
  unfold pqPush
  have h1 : q.length < (q ++ [x]).length := by simp
  refine upAux_heap _ _ _ h1 (by simp) ⟨?_, ?_⟩
  · intro c hc hclen hcj
    have hclt : c < q.length := by
      simp at hclen
      omega
    unfold HeapLe pqGet
    rw [List.getD_append _ _ _ _ hclt, List.getD_append _ _ _ _ (by omega)]
    exact h c hc hclt
  · intro c hc hclen hpar _
    simp at hclen
    omega

theorem heap_root_min {q : Queue} (h : IsHeap q) :
    ∀ i, i < q.length → (pqGet q 0).Count ≤ (pqGet q i).Count := by
  intro i
  induction i using Nat.strong_induction_on with
  | _ i ih =>
    intro hi
    cases Nat.eq_zero_or_pos i with
    | inl h0 => subst h0; exact Nat.le_refl _
    | inr hpos =>
      have hp : (i-1)/2 < i := by omega
      exact Nat.le_trans (ih _ hp (by omega)) (h i hpos hi)

/-! ## `heap.down`: permutation and heap restoration on a region -/

theorem downAux_unfold (f : Nat) (q : Queue) (i n : Nat) :
    downAux (f+1) q i n =
      if 2*i+1 ≥ n then q
      else
        let j := if 2*i+1+1 < n ∧ pqLess q (2*i+1+1) (2*i+1) then 2*i+1+1 else 2*i+1
        if pqLess q j i then downAux f (pqSwap q i j) j n else q := rfl

theorem downAux_perm : ∀ (f : Nat) (q : Queue) (i n : Nat), n ≤ q.length →
    (downAux f q i n).Perm q := by
  intro f
  induction f with
  | zero => intro q i n _; exact List.Perm.refl _
  | succ f ih =>
    intro q i n hn
    rw [downAux_unfold]
    by_cases hj1 : 2*i+1 ≥ n
    · rw [if_pos hj1]
    · rw [if_neg hj1]
      set j := if 2*i+1+1 < n ∧ pqLess q (2*i+1+1) (2*i+1) then 2*i+1+1 else 2*i+1 with hjdef
      have hjn : j < n := by
        rw [hjdef]
        split
        · omega
        · omega
      by_cases hless : pqLess q j i
      · rw [if_pos hless]
        have hperm := ih (pqSwap q i j) j n (by rw [length_pqSwap]; exact hn)
        exact hperm.trans (pqSwap_perm q i j (by omega) (by omega))
      · rw [if_neg hless]

theorem downAux_untouched : ∀ (f : Nat) (q : Queue) (i n k : Nat), n ≤ k →
    pqGet (downAux f q i n) k = pqGet q k := by
  intro f
  induction f with
  | zero => intro q i n k _; rfl
  | succ f ih =>
    intro q i n k hk
    rw [downAux_unfold]
    by_cases hj1 : 2*i+1 ≥ n
    · rw [if_pos hj1]
    · rw [if_neg hj1]
      set j := if 2*i+1+1 < n ∧ pqLess q (2*i+1+1) (2*i+1) then 2*i+1+1 else 2*i+1 with hjdef
      have hjn : j < n := by
        rw [hjdef]
        split
        · omega
        · omega
      by_cases hless : pqLess q j i
      · rw [if_pos hless, ih _ _ _ _ hk]
        exact pqGet_swap_other (by omega) (by omega)
      · rw [if_neg hless]

theorem downAux_heap : ∀ (f : Nat) (q : Queue) (i n : Nat), n ≤ q.length →
    n ≤ f + i → DownInv q i n → IsHeapN (downAux f q i n) n := by
  intro f
  induction f with
  | zero =>
    intro q i n _ hf hinv c hc hcn
    by_cases hpar : (c-1)/2 = i
    · omega
    · exact hinv.1 c hc hcn hpar
  | succ f ih =>
    intro q i n hn hf hinv
    rw [downAux_unfold]
    by_cases hj1 : 2*i+1 ≥ n
    · rw [if_pos hj1]
      intro c hc hcn
      by_cases hpar : (c-1)/2 = i
      · omega
      · exact hinv.1 c hc hcn hpar
    · rw [if_neg hj1]
      set j := if 2*i+1+1 < n ∧ pqLess q (2*i+1+1) (2*i+1) then 2*i+1+1 else 2*i+1 with hjdef
      have hjn : j < n := by
        rw [hjdef]
        split
        · omega
        · omega
      have hparj : (j-1)/2 = i := by
        rw [hjdef]
        split
        · omega
        · omega
      have hij : i < j := by
        rw [hjdef]
        split
        · omega
        · omega
      have hjmin : ∀ c, 0 < c → c < n → (c-1)/2 = i →
          (pqGet q j).Count ≤ (pqGet q c).Count := by
        intro c hc hcn hpar
        have hc2 : c = 2*i+1 ∨ c = 2*i+2 := by omega
        rw [hjdef]
        split
        · rcases hc2 with rfl | rfl
          · next hcond => exact Nat.le_of_lt hcond.2
          · exact Nat.le_refl _
        · next hcond =>
          rcases hc2 with rfl | rfl
          · exact Nat.le_refl _
          · unfold pqLess at hcond
            push_neg at hcond
            by_cases hin : 2*i+1+1 < n
            · exact hcond hin
            · omega
      by_cases hless : pqLess q j i
      · rw [if_pos hless]
        refine ih (pqSwap q i j) j n (by rw [length_pqSwap]; exact hn) (by omega)
          ⟨?_, ?_⟩
        · intro c hc hcn hpar
          unfold HeapLe
          by_cases hci : c = i
          · -- the edge into i: bounded by i's parent via the old grandparent bound
            rw [hci]
            have hi0 : 0 < i := hci ▸ hc
            have hpi : (i-1)/2 ≠ i := by omega
            have hpij : (i-1)/2 ≠ j := by omega
            rw [pqGet_swap_other hpi hpij, pqGet_swap_left (by omega) (by omega)]
            exact hinv.2 j (by omega) hjn hparj hi0
          · by_cases hcj : c = j
            · -- the edge from i into j now holds by the swap
              rw [hcj, hparj, pqGet_swap_left (by omega) (by omega),
                pqGet_swap_right (by omega)]
              exact Nat.le_of_lt hless
            · by_cases hpari : (c-1)/2 = i
              · -- sibling of j: bounded because j was the smaller child
                rw [hpari, pqGet_swap_left (by omega) (by omega),
                  pqGet_swap_other hci hcj]
                exact hjmin c hc hcn hpari
              · have hpj : (c-1)/2 ≠ j := hpar
                rw [pqGet_swap_other hpari hpj, pqGet_swap_other hci hcj]
                exact hinv.1 c hc hcn hpari
        · intro c hc hcn hpar hj0
          unfold HeapLe
          rw [hparj]
          have hcj : c ≠ j := by omega
          have hci : c ≠ i := by omega
          rw [pqGet_swap_left (by omega) (by omega), pqGet_swap_other hci hcj]
          have hedge : HeapLe q ((c-1)/2) c := hinv.1 c hc hcn (by omega)
          rw [hpar] at hedge
          exact hedge
      · rw [if_neg hless]
        intro c hc hcn
        by_cases hpar : (c-1)/2 = i
        · unfold HeapLe
          rw [hpar]
          unfold pqLess at hless
          push_neg at hless
          exact Nat.le_trans hless (hjmin c hc hcn hpar)
        · exact hinv.1 c hc hcn hpar

/-! ## `heap.Pop` returns the root and preserves the heap -/

theorem pqGet_take {l : Queue} {n k : Nat} (h : k < n) :
    pqGet (l.take n) k = pqGet l k := by
  unfold pqGet
  rw [List.getD_eq_getElem?_getD, List.getD_eq_getElem?_getD, List.getElem?_take,
    if_pos h]

theorem pqPop_spec (q : Queue) (hq : 0 < q.length) (h : IsHeap q) :
    (pqPop q).1 = pqGet q 0 ∧ IsHeap (pqPop q).2 ∧
      ((pqPop q).1 :: (pqPop q).2).Perm q ∧ (pqPop q).2.length = q.length - 1 := by
  set n := q.length - 1 with hndef
  have hpop : pqPop q = (pqGet (downAux q.length (pqSwap q 0 n) 0 n) n,
      (downAux q.length (pqSwap q 0 n) 0 n).take n) := rfl
  rw [hpop]
  set q1 := pqSwap q 0 n with hq1def
  set q2 := downAux q.length q1 0 n with hq2def
  have hlen1 : q1.length = q.length := length_pqSwap ..
  have hlen2 : q2.length = q.length := by
    rw [hq2def, (downAux_perm _ _ _ _ (by omega)).length_eq, hlen1]
  have hget : pqGet q2 n = pqGet q 0 := by
    rw [hq2def, downAux_untouched _ _ _ _ _ (Nat.le_refl n), hq1def,
      pqGet_swap_right (by omega)]
  have hheapN : IsHeapN q2 n := by
    refine downAux_heap q.length q1 0 n (by omega) (by omega) ⟨?_, ?_⟩
    · intro c hc hcn hpar
      unfold HeapLe
      rw [hq1def, pqGet_swap_other (by omega) (by omega),
        pqGet_swap_other (by omega) (by omega)]
      exact h c hc (by omega)
    · intro c hc hcn hpar h0
      omega
  refine ⟨hget, ?_, ?_, ?_⟩
  · intro j hj hjlen
    have hjlen' : j < n := by
      have := List.length_take n q2
      simp at hjlen
      omega
    unfold HeapLe
    rw [pqGet_take hjlen', pqGet_take (by omega)]
    exact hheapN j hj hjlen'
  · show (pqGet q2 n :: q2.take n).Perm q
    have hq2len : q2.length = n + 1 := by omega
    have hdrop : q2.drop n = [pqGet q2 n] := by
      rw [List.drop_eq_getElem_cons (by omega), List.drop_eq_nil_of_le (by omega)]
      unfold pqGet
      rw [List.getD_eq_getElem _ _ (by omega)]
    have hdecomp : q2.take n ++ [pqGet q2 n] = q2 := by
      rw [← hdrop]
      exact List.take_append_drop n q2
    have hmid : (q2.take n ++ [pqGet q2 n]).Perm (pqGet q2 n :: (q2.take n ++ [])) :=
      List.perm_middle
    rw [List.append_nil] at hmid
    have hq2perm : q2.Perm q := by
      rw [hq2def]
      exact (downAux_perm _ _ _ _ (by omega)).trans (pqSwap_perm q 0 n hq (by omega))
    have h4 : (pqGet q2 n :: q2.take n).Perm q2 := by
      conv_rhs => rw [← hdecomp]
      exact hmid.symm
    exact h4.trans hq2perm
  · show (q2.take n).length = q.length - 1
    rw [List.length_take]
    omega

/-! ## Draining the queue yields entries sorted by candidate count -/

theorem popOrder_spec : ∀ (f : Nat) (q : Queue), q.length ≤ f → IsHeap q →
    (popOrder f q).Perm q ∧
      List.Pairwise (fun a b : PrioCoord => a.Count ≤ b.Count) (popOrder f q) := by
  intro f
  induction f with
  | zero =>
    intro q hq _
    have hnil : q = [] := List.eq_nil_of_length_eq_zero (by omega)
    subst hnil
    exact ⟨List.Perm.refl _, List.Pairwise.nil⟩
  | succ f ih =>
    intro q hq hheap
    by_cases h0 : q.length = 0
    · have hnil : q = [] := List.eq_nil_of_length_eq_zero h0
      subst hnil
      have hempty : popOrder (f+1) ([] : Queue) = [] := rfl
      rw [hempty]
      exact ⟨List.Perm.refl _, List.Pairwise.nil⟩
    · obtain ⟨hfst, hheap2, hperm, hlen⟩ := pqPop_spec q (by omega) hheap
      obtain ⟨hrperm, hrsorted⟩ := ih (pqPop q).2 (by omega) hheap2
      have heq : popOrder (f+1) q = (pqPop q).1 :: popOrder f (pqPop q).2 := by
        show (if q.length = 0 then [] else _) = _
        rw [if_neg h0]
      rw [heq]
      constructor
      · exact (List.Perm.cons _ hrperm).trans hperm
      · refine List.Pairwise.cons ?_ hrsorted
        intro b hb
        have hbq : b ∈ q := by
          have : b ∈ (pqPop q).2 := (hrperm.mem_iff).1 hb
          exact (hperm.mem_iff).1 (List.mem_cons_of_mem _ this)
        obtain ⟨idx, hidx, hbidx⟩ := List.getElem_of_mem hbq
        have hbget : pqGet q idx = b := by
          unfold pqGet
          rw [List.getD_eq_getElem _ _ hidx]
          exact hbidx
        rw [hfst, ← hbget]
        exact heap_root_min hheap idx hidx

theorem pqDrain_spec (q : Queue) (hheap : IsHeap q) :
    (pqDrain q).Perm q ∧
      List.Pairwise (fun a b : PrioCoord => a.Count ≤ b.Count) (pqDrain q) :=
  popOrder_spec q.length q (Nat.le_refl _) hheap

/-! ## The content of `board.tries` -/

theorem triesFold_heap (b : Board) (w : Nat) :
    ∀ (L : List Coord) (q : Queue), IsHeap q →
      IsHeap (L.foldl (fun q c =>
        let p := (b.atc c).PossibilityCount
        if 0 < p ∧ p ≤ w then pqPush q ⟨p, c⟩ else q) q) := by
  intro L
  induction L with
  | nil => intro q hq; exact hq
  | cons c L ih =>
    intro q hq
    rw [List.foldl_cons]
    by_cases hcond : 0 < (b.atc c).PossibilityCount ∧ (b.atc c).PossibilityCount ≤ w
    · simp only [if_pos hcond]
      exact ih _ (pqPush_heap _ hq)
    · simp only [if_neg hcond]
      exact ih _ hq

theorem tries_heap (b : Board) (w : Nat) : IsHeap (b.tries w) := by
  unfold Board.tries
  refine triesFold_heap b w allCoords [] ?_
  intro j hj hlen
  simp at hlen

theorem triesFold_perm (b : Board) (w : Nat) :
    ∀ (L : List Coord) (q : Queue),
      (L.foldl (fun q c =>
          let p := (b.atc c).PossibilityCount
          if 0 < p ∧ p ≤ w then pqPush q ⟨p, c⟩ else q) q).Perm
        ((L.filter fun c =>
            decide (0 < (b.atc c).PossibilityCount ∧ (b.atc c).PossibilityCount ≤ w)).map
          (fun c => ⟨(b.atc c).PossibilityCount, c⟩) ++ q) := by
  intro L
  induction L with
  | nil => intro q; simp
  | cons c L ih =>
    intro q
    rw [List.foldl_cons, List.filter_cons]
    by_cases hcond : 0 < (b.atc c).PossibilityCount ∧ (b.atc c).PossibilityCount ≤ w
    · simp only [if_pos hcond, hcond, decide_eq_true_eq, List.map_cons]
      have h1 := ih (pqPush q ⟨(b.atc c).PossibilityCount, c⟩)
      have h2 : (pqPush q ⟨(b.atc c).PossibilityCount, c⟩).Perm
          (⟨(b.atc c).PossibilityCount, c⟩ :: q) := pqPush_perm ..
      have h3 := (List.Perm.append_left
        ((L.filter fun c =>
            decide (0 < (b.atc c).PossibilityCount ∧ (b.atc c).PossibilityCount ≤ w)).map
          (fun c => ⟨(b.atc c).PossibilityCount, c⟩)) h2)
      refine (h1.trans h3).trans ?_
      exact List.perm_middle
    · simp only [if_neg hcond, hcond, decide_eq_true_eq, if_neg, if_false]
      exact ih q

theorem tries_perm (b : Board) (w : Nat) :
    (b.tries w).Perm
      ((allCoords.filter fun c =>
          decide (0 < (b.atc c).PossibilityCount ∧ (b.atc c).PossibilityCount ≤ w)).map
        fun c => ⟨(b.atc c).PossibilityCount, c⟩) := by
  unfold Board.tries
  have := triesFold_perm b w allCoords []
  simpa using this

theorem drain_tries_mem {b : Board} {w : Nat} {p : PrioCoord}
    (hp : p ∈ pqDrain (b.tries w)) :
    p.Coord.Valid ∧ p.Count = (b.atc p.Coord).PossibilityCount ∧
      0 < (b.atc p.Coord).PossibilityCount ∧ (b.atc p.Coord).PossibilityCount ≤ w := by
  have h1 : p ∈ b.tries w :=
    ((pqDrain_spec _ (tries_heap b w)).1.mem_iff).1 hp
  have h2 := ((tries_perm b w).mem_iff).1 h1
  rw [List.mem_map] at h2
  obtain ⟨c, hc, hpc⟩ := h2
  rw [List.mem_filter] at hc
  obtain ⟨hcall, hcond⟩ := hc
  rw [decide_eq_true_eq] at hcond
  rw [← hpc]
  exact ⟨mem_allCoords.1 hcall, rfl, hcond.1, hcond.2⟩

theorem drain_can_ne {b : Board} {w : Nat} {p : PrioCoord}
    (hp : p ∈ pqDrain (b.tries w)) : (b.atc p.Coord).can ≠ 0 := by
  intro h0
  have h := (drain_tries_mem hp).2.2.1
  unfold Cell.PossibilityCount at h
  rw [h0, popCount16_zero] at h
  omega

section SealedSolverB

attribute [local irreducible] Board.fill dropFold Board.allPossible
  Board.singlePossible Board.onlyPlace findOnly groupCounts Board.totalCan
  Board.solved Board.contradicts Board.tries pqPush pqPop upAux downAux
  popOrder pqDrain tryCells tryCands solveAux iterAux

/-! ## First-success semantics of the `try` loops -/

theorem tryCands_eq (recur : Board → Bool × Board) (b : Board) (c : Coord) :
    ∀ vs : List Nat,
      tryCands recur b c vs = vs.findSome? fun v =>
        if (recur (b.fill c v)).1 then some (recur (b.fill c v)).2 else none := by
  intro vs
  induction vs with
  | nil => simp [tryCands]
  | cons v vs ih =>
    rw [List.findSome?_cons]
    cases hr : recur (b.fill c v) with
    | mk ok bb =>
      cases ok with
      | true =>
        simp only [tryCands, hr]
        simp
      | false =>
        simp only [tryCands, hr]
        simpa using ih

theorem tryCells_eq (recur : Board → Bool × Board) (b : Board) :
    ∀ ord : List PrioCoord,
      tryCells recur b ord = ord.findSome? fun p =>
        tryCands recur b p.Coord (possList ((b.atc p.Coord).can)) := by
  intro ord
  induction ord with
  | nil => simp [tryCells]
  | cons p ps ih =>
    rw [List.findSome?_cons]
    cases htc : tryCands recur b p.Coord (possList ((b.atc p.Coord).can)) with
    | some b' =>
      simp only [tryCells, htc]
    | none =>
      simp only [tryCells, htc]
      simpa using ih

/-! ## Predicate preservation through the search -/

theorem tryCands_pres {P : Board → Prop} {recur : Board → Bool × Board}
    (hrec : ∀ bb, P bb → P (recur bb).2) {b : Board} {c : Coord}
    (hfill : ∀ v, P (b.fill c v)) :
    ∀ (vs : List Nat) (r : Board), tryCands recur b c vs = some r → P r := by
  intro vs
  induction vs with
  | nil => intro r h; simp [tryCands] at h
  | cons v vs ih =>
    intro r h
    cases hr : recur (b.fill c v) with
    | mk ok bb =>
      simp only [tryCands, hr] at h
      cases ok with
      | true =>
        have hbb : bb = r := by simpa using h
        have hP := hrec (b.fill c v) (hfill v)
        rw [hr] at hP
        exact hbb ▸ hP
      | false =>
        exact ih r (by simpa using h)

theorem tryCells_pres {P : Board → Prop} {recur : Board → Bool × Board}
    (hrec : ∀ bb, P bb → P (recur bb).2) {b : Board} :
    ∀ (ord : List PrioCoord), (∀ p ∈ ord, ∀ v, P (b.fill p.Coord v)) →
      ∀ (r : Board), tryCells recur b ord = some r → P r := by
  intro ord
  induction ord with
  | nil => intro _ r h; simp [tryCells] at h
  | cons p ps ih =>
    intro hfill r h
    cases htc : tryCands recur b p.Coord (possList ((b.atc p.Coord).can)) with
    | some b' =>
      simp only [tryCells, htc] at h
      have hb' : b' = r := by simpa using h
      exact hb' ▸ tryCands_pres hrec (hfill p (List.mem_cons_self _ _)) _ b' htc
    | none =>
      simp only [tryCells, htc] at h
      exact ih (fun x hx v => hfill x (List.mem_cons_of_mem _ hx) v) r (by simpa using h)

theorem propAux_length : ∀ (f : Nat) (b : Board), (propAux f b).length = b.length := by
  intro f
  induction f with
  | zero => intro b; rfl
  | succ f ih =>
    intro b
    rw [propAux_succ]
    by_cases hsp : b.singlePossible.1 = true
    · rw [if_pos hsp, ih, sp_length]
    · rw [if_neg hsp]
      by_cases hop : b.onlyPlace.1 = true
      · rw [if_pos hop, ih, op_length]
      · rw [if_neg hop]

theorem propagate_length (b : Board) : b.propagate.length = b.length :=
  propAux_length (b.totalCan + 1) b

theorem solveAux_pres {P : Board → Prop} (good : GoodStep P) :
    ∀ (f w : Nat) (b : Board), b.length = 81 → P b →
      (solveAux f w b).2.length = 81 ∧ P (solveAux f w b).2 := by
  intro f
  induction f with
  | zero =>
    intro w b hb hP
    rw [solveAux_zero]
    exact ⟨hb, hP⟩
  | succ f ih =>
    intro w b hb hP
    rw [solveAux_succ, solveStep_eq]
    have hb1 : b.propagate.length = 81 := by rw [propagate_length]; exact hb
    have hP1 : P b.propagate := propagate_pres good b hb hP
    by_cases hsol : b.propagate.solved = true
    · rw [if_pos (by simp [hsol])]
      exact ⟨hb1, hP1⟩
    · rw [if_neg (by simp [hsol])]
      by_cases hcon : b.propagate.contradicts = true
      · rw [if_pos (by simp [hcon])]
        exact ⟨hb1, hP1⟩
      · rw [if_neg (by simp [hcon])]
        cases htc : tryCells (fun bb => solveAux f w bb) b.propagate
            (pqDrain (b.propagate.tries w)) with
        | some b' =>
          refine tryCells_pres (P := fun x => x.length = 81 ∧ P x)
            (fun bb hbb => ih w bb hbb.1 hbb.2) _ ?_ b' htc
          intro p hp v
          constructor
          · rw [length_fill]
            exact hb1
          · exact good b.propagate p.Coord v (drain_tries_mem hp).1 hb1
              (drain_can_ne hp) hP1
        | none =>
          exact ⟨hb1, hP1⟩

/-! ## The cell invariant: preservation by every operation -/

theorem atc_cinv {b : Board} (d : Coord) (h : BoardInv b) : CInv (b.atc d) := by
  unfold Board.atc
  by_cases hlt : Ctoi d < b.length
  · rw [List.getD_eq_getElem _ _ hlt]
    exact h _ (List.getElem_mem hlt)
  · rw [List.getD_eq_default _ _ (by omega)]
    exact fun _ => rfl

theorem setAt_inv {b : Board} {c : Coord} {x : Cell} (h : BoardInv b) (hx : CInv x) :
    BoardInv (b.setAt c x) := fun cl hcl =>
  (mem_of_mem_set hcl).elim (h cl) fun he => he ▸ hx

theorem drop_cinv {v : Nat} {x : Cell} (h : CInv x) : CInv (Cell.Drop v x) := by
  intro h0
  show x.can &&& dropMask v = 0
  rw [h h0, Nat.zero_and]

theorem new_cinv (v : Nat) : CInv (Cell.New v) := fun _ => rfl

theorem dropFold_inv {v : Nat} :
    ∀ (L : List Coord) (b : Board), BoardInv b → BoardInv (dropFold v L b) := by
  intro L
  induction L with
  | nil => intro b h; rw [dropFold_nil]; exact h
  | cons e L ih =>
    intro b h
    rw [dropFold_cons]
    exact ih _ (setAt_inv h (drop_cinv (atc_cinv e h)))

theorem fill_inv {b : Board} {c : Coord} {v : Nat} (h : BoardInv b) :
    BoardInv (b.fill c v) := by
  unfold Board.fill
  exact dropFold_inv _ _ (setAt_inv h (new_cinv v))

theorem good_inv : GoodStep BoardInv := fun _ _ _ _ _ _ h => fill_inv h

theorem iterAux_pres {P : Board → Prop} (good : GoodStep P) :
    ∀ (fuel d : Nat) (b b' : Board), b.length = 81 → P b →
      iterAux fuel d b = some b' → b'.length = 81 ∧ P b' := by
  intro fuel
  induction fuel with
  | zero => intro d b b' _ _ h; simp [iterAux] at h
  | succ f ih =>
    intro d b b' hb hP h
    have hsolve := solveAux_pres good d (max (d / 3) 2) b hb hP
    have hrw : b.solve 0 d (max (d / 3) 2) = solveAux d (max (d / 3) 2) b := rfl
    cases hs : b.solve 0 d (max (d / 3) 2) with
    | mk ok b1 =>
      rw [hrw] at hs
      rw [hs] at hsolve
      simp only [iterAux, hrw, hs] at h
      cases ok with
      | true =>
        have hb1 : b1 = b' := by simpa using h
        exact hb1 ▸ hsolve
      | false =>
        exact ih (d+1) b1 b' hsolve.1 hsolve.2 (by simpa using h)

theorem reachable_facts : ∀ b : Board, Reachable b → b.length = 81 ∧ BoardInv b := by
  intro b h
  induction h with
  | init => exact ⟨board0_facts.2, board0_facts.1⟩
  | fill c _ _ _ ih => exact ⟨by rw [length_fill]; exact ih.1, fill_inv ih.2⟩
  | single _ ih => exact ⟨by rw [sp_length]; exact ih.1, sp_pres good_inv _ ih.1 ih.2⟩
  | only _ ih => exact ⟨by rw [op_length]; exact ih.1, op_pres good_inv _ ih.1 ih.2⟩
  | solve depth maxDepth maxWidth _ ih =>
    exact solveAux_pres good_inv (maxDepth - depth) maxWidth _ ih.1 ih.2
  | iter fuel _ hit ih =>
    exact iterAux_pres good_inv fuel 3 _ _ ih.1 ih.2 hit

/-! ## C8: the cell invariant holds on every reachable board -/

/-- C8: every board reachable from the freshly initialised board by the
solver's operations satisfies the cell invariant: a cell with a nonzero
value carries an empty candidate mask. -/
theorem reachable_cell_invariant (b : Board) (h : Reachable b) : BoardInv b :=
  (reachable_facts b h).2

/-! ## C5: the branching step of the search -/

/-- C5: `try` builds its queue over exactly the cells whose candidate count
lies in `[1, maxWidth]`; draining the binary heap pops the entries in
ascending candidate-count order (a permutation of the queue); each popped
cell's candidate digits are enumerated in ascending order; both `try`
loops are first-success searches, recursing through
`solve(depth+1, maxDepth, maxWidth)` on a filled clone and returning the
successful clone; and `solve` delegates to `try` exactly when the
propagated board is neither solved nor contradictory. -/
theorem try_branching (b : Board) (w depth maxDepth : Nat) (hw9 : WF9 b) :
    (b.tries w).Perm ((allCoords.filter fun c =>
        decide (0 < (b.atc c).PossibilityCount ∧ (b.atc c).PossibilityCount ≤ w)).map
      fun c => ⟨(b.atc c).PossibilityCount, c⟩) ∧
    (pqDrain (b.tries w)).Perm (b.tries w) ∧
    List.Pairwise (fun x y : PrioCoord => x.Count ≤ y.Count) (pqDrain (b.tries w)) ∧
    (∀ p ∈ pqDrain (b.tries w),
        possList ((b.atc p.Coord).can) = bitsOf ((b.atc p.Coord).can) ∧
          List.Pairwise (· < ·) (possList ((b.atc p.Coord).can))) ∧
    (∀ (recur : Board → Bool × Board) (c : Coord) (vs : List Nat),
        tryCands recur b c vs = vs.findSome? fun v =>
          if (recur (b.fill c v)).1 then some (recur (b.fill c v)).2 else none) ∧
    (b.tryB depth maxDepth w =
      match (pqDrain (b.tries w)).findSome? (fun p =>
          tryCands (fun bb => bb.solve (depth + 1) maxDepth w) b p.Coord
            (possList ((b.atc p.Coord).can))) with
      | some b' => (true, b')
      | none => (false, b)) ∧
    (depth < maxDepth → b.propagate.solved = false → b.propagate.contradicts = false →
      b.solve depth maxDepth w = b.propagate.tryB depth maxDepth w) := by
  refine ⟨tries_perm b w, (pqDrain_spec _ (tries_heap b w)).1,
    (pqDrain_spec _ (tries_heap b w)).2, ?_, fun recur c vs => tryCands_eq recur b c vs,
    ?_, ?_⟩
  · intro p hp
    exact possList_bits_all _ (WFcan_atc p.Coord (by omega) hw9) (drain_can_ne hp)
  · unfold Board.tryB
    rw [tryCells_eq]
    unfold Board.solve
    rfl
  · intro hd hsol hcon
    unfold Board.solve Board.tryB
    have hf : maxDepth - depth = (maxDepth - depth - 1) + 1 := by omega
    rw [hf, solveAux_succ, solveStep_eq, if_neg (by simp [hsol]),
      if_neg (by simp [hcon])]
    have hf2 : maxDepth - depth - 1 = maxDepth - (depth + 1) := by omega
    rw [hf2]

end SealedSolverB

theorem reachable_cell_invariant_witness : BoardInv (board0.fill ⟨0, 0⟩ 8) :=
  reachable_cell_invariant _
    (Reachable.fill ⟨0, 0⟩ Reachable.init (by decide) (by decide))

set_option maxHeartbeats 2000000 in
theorem try_branching_witness :
    (pqDrain (mainBoard.tries 2)).Perm (mainBoard.tries 2) ∧
      List.Pairwise (fun x y : PrioCoord => x.Count ≤ y.Count)
        (pqDrain (mainBoard.tries 2)) :=
  ⟨(try_branching mainBoard 2 0 3 (by decide)).2.1,
   (try_branching mainBoard 2 0 3 (by decide)).2.2.1⟩
